import Mathlib

/-!
# Verification of the confidence-interval quiz (`src/app.py`)

A shallow embedding of the core logic of `src/app.py`:

* `parse_number` / `format_number` — the human-numeric-input parser and the
  display formatter;
* the question catalog `QUESTIONS`;
* the `/question/<index>` and `/results` request handlers (`question_route`,
  `results_route`) over an explicit session record;
* the statistics store (`load_stats`, defaulting, commit).

Numeric values are modelled as exact rationals (`ℚ`): Python `float`
arithmetic on the in-range values exercised here is exact, and rounding of
in-range values is abstracted away.  `parse_number_float` models the
binary64 pipeline separately and explicitly: the rounding of the decimal
literal to a 53-bit significand, the rounding of its product with the
magnitude multiplier, and the overflow of either step to infinity.

The scanning part of the parser is kept purely structural (characters,
naturals, booleans) in `parseLit`, so that it evaluates by `decide`; the
numeric interpretation into `ℚ` is the separate, small `NumLit.toQ`.
-/

namespace Quiz

/-! ## Python string primitives used by `app.py` -/

/-- The ASCII whitespace characters stripped by Python's `str.strip()`. -/
def isPyWS (c : Char) : Bool :=
  c = ' ' ∨ c = '\t' ∨ c = '\n' ∨ c = '\r' ∨ c = '\x0b' ∨ c = '\x0c'

/-- `str.strip()` on a character list: drop whitespace at both ends. -/
def pyStrip (cs : List Char) : List Char :=
  ((cs.dropWhile isPyWS).reverse.dropWhile isPyWS).reverse

/-- `str.strip()` on a `String`. -/
def pyStripS (s : String) : String :=
  String.mk (pyStrip s.toList)

/-- `str.rstrip(c)` for a single character `c`. -/
def rstripChar (c : Char) (cs : List Char) : List Char :=
  (cs.reverse.dropWhile (· = c)).reverse

/-- Whether `cs` contains two adjacent occurrences of `c`
(Python's `c+c in s` substring test for a doubled character). -/
def hasDouble (c : Char) : List Char → Bool
  | a :: b :: rest => (a = c ∧ b = c) ∨ hasDouble c (b :: rest)
  | _ => false

/-- Split a character list at commas (Python `s.split(',')`). -/
def splitComma : List Char → List (List Char)
  | [] => [[]]
  | c :: rest =>
    if c = ',' then [] :: splitComma rest
    else
      match splitComma rest with
      | g :: gs => (c :: g) :: gs
      | [] => [[c]]

/-- Numeric value of a digit string (most significant digit first). -/
def digitsVal (cs : List Char) : Nat :=
  cs.foldl (fun a c => 10 * a + (c.toNat - '0'.toNat)) 0

/-! ## `parse_number` (`src/app.py` lines 13–76)

The pipeline is split into `parsePre` (strip / separator removal / leading-
and trailing-dot normalisation), `matchShorthand` (the regex
`^\s*([+-]?\d*\.?\d+)\s*([kKmMbBtT])?\s*$` applied to the comma-stripped
string) and `fallbackParse` (the comma/decimal validation plus `float()`). -/

/-- A scanned numeric literal: sign, integer-part digits, fractional-part
digits.  Its value is `(-1)^neg * (ip + fp / 10^|fp|)` — see `NumLit.toQ`. -/
structure NumLit where
  neg : Bool
  ip : List Char
  fp : List Char
  deriving DecidableEq, Repr

/-- Exact value of a scanned literal (Python `float()` of the matched text,
with the in-range rounding of the binary conversion abstracted away). -/
def NumLit.toQ (l : NumLit) : ℚ :=
  (if l.neg then -1 else 1) * ((digitsVal l.ip : ℚ) + (digitsVal l.fp : ℚ) / 10 ^ l.fp.length)

/-- The preprocessing of `parse_number`: `strip()`, the empty test, removal
of spaces and underscores, prepending `0` to a leading `.`, and dropping a
trailing `.` when it is the only dot.  Returns the normalised character
list, or `none` when the stripped input was empty. -/
def parsePre (value : String) : Option (List Char) :=
  let s0 := pyStrip value.toList
  if s0 = [] then none
  else
    let s1 := s0.filter (fun c => ¬(c = ' ' ∨ c = '_'))
    let s2 := if s1.head? = some '.' then '0' :: s1 else s1
    let s3 := if s2.getLast? = some '.' ∧ s2.count '.' = 1 then s2.dropLast else s2
    some s3

/-- Scan `[+-]?\d*\.?\d+` at the front of `cs`; returns the literal and the
unconsumed remainder. -/
def matchNum (cs : List Char) : Option (NumLit × List Char) :=
  let sr : Bool × List Char :=
    match cs with
    | c :: r => if c = '+' then (false, r) else if c = '-' then (true, r) else (false, cs)
    | [] => (false, cs)
  let ipart := sr.2.takeWhile (·.isDigit)
  let rest1 := sr.2.dropWhile (·.isDigit)
  if rest1.head? = some '.' then
    let r2 := rest1.tail
    let fpart := r2.takeWhile (·.isDigit)
    let rest2 := r2.dropWhile (·.isDigit)
    if fpart = [] then none
    else some (⟨sr.1, ipart, fpart⟩, rest2)
  else if ipart = [] then none
  else some (⟨sr.1, ipart, []⟩, rest1)

/-- Whether `c` is one of the magnitude-suffix letters `kKmMbBtT`. -/
def isSuffixChar (c : Char) : Bool :=
  c = 'k' ∨ c = 'K' ∨ c = 'm' ∨ c = 'M' ∨ c = 'b' ∨ c = 'B' ∨ c = 't' ∨ c = 'T'

/-- Exponent of the multiplier `multipliers.get(suffix.upper(), 1.0)`:
`K ↦ 3`, `M ↦ 6`, `B ↦ 9`, `T ↦ 12`, no suffix `↦ 0`. -/
def sexp (oc : Option Char) : Nat :=
  match oc with
  | none => 0
  | some c =>
    if c = 'k' ∨ c = 'K' then 3
    else if c = 'm' ∨ c = 'M' then 6
    else if c = 'b' ∨ c = 'B' then 9
    else if c = 't' ∨ c = 'T' then 12
    else 0

/-- Full match of `^\s*([+-]?\d*\.?\d+)\s*([kKmMbBtT])?\s*$` against `cs`:
returns the scanned literal of group 1 and the optional suffix letter. -/
def matchShorthand (cs : List Char) : Option (NumLit × Option Char) :=
  match matchNum (cs.dropWhile isPyWS) with
  | none => none
  | some (l, rest) =>
    match rest.dropWhile isPyWS with
    | [] => some (l, none)
    | c :: rest2 =>
      if isSuffixChar c ∧ rest2.dropWhile isPyWS = [] then some (l, some c)
      else none

/-- Python `float()` restricted to the unsigned digit/dot strings that reach
it in `parse_number` (at most one `.`, characters in `[0-9.]`); `none`
models the `ValueError` branch. -/
def floatOfClean (cs : List Char) : Option NumLit :=
  let ipart := cs.takeWhile (· ≠ '.')
  match cs.dropWhile (· ≠ '.') with
  | [] => if ipart = [] ∨ ¬ ipart.all (·.isDigit) then none else some ⟨false, ipart, []⟩
  | _ :: fpart =>
    if (ipart = [] ∧ fpart = []) ∨ ¬ ipart.all (·.isDigit) ∨ ¬ fpart.all (·.isDigit) then none
    else some ⟨false, ipart, fpart⟩

/-- The grouping check `re.fullmatch(r"\d{1,3}(,\d{3})*", int_part)`. -/
def groupingOk (cs : List Char) : Bool :=
  match splitComma cs with
  | [] => false
  | g0 :: gs =>
    (1 ≤ g0.length ∧ g0.length ≤ 3 ∧ g0.all (·.isDigit)) ∧
      gs.all (fun g => g.length = 3 ∧ g.all (·.isDigit))

/-- The non-shorthand branch of `parse_number`: charset check, doubled
separators, leading/trailing comma, multiple dots, comma grouping of the
integer part, then `float` of the comma-stripped string. -/
def fallbackParse (s3 : List Char) : Option NumLit :=
  if s3 = [] ∨ ¬ s3.all (fun c => c.isDigit ∨ c = ',' ∨ c = '.') then none
  else if hasDouble ',' s3 ∨ hasDouble '.' s3 then none
  else if s3.head? = some ',' ∨ s3.getLast? = some ',' then none
  else if 1 < s3.count '.' then none
  else
    let intPart := s3.takeWhile (· ≠ '.')
    if ',' ∈ intPart ∧ ¬ groupingOk intPart then none
    else floatOfClean (s3.filter (· ≠ ','))

/-- The purely structural part of `parse_number`: the scanned literal and
the optional magnitude suffix (`none` in the fallback branch).  Note that
the shorthand regex is applied to the comma-stripped string *before* the
comma validation of `fallbackParse` runs, exactly as in the source. -/
def parseLit (value : String) : Option (NumLit × Option Char) :=
  match parsePre value with
  | none => none
  | some s3 =>
    match matchShorthand (s3.filter (· ≠ ',')) with
    | some (l, suf) => some (l, suf)
    | none => (fallbackParse s3).map (fun l => (l, none))

/-- `parse_number` from `src/app.py`, over exact rationals. -/
def parse_number (value : String) : Option ℚ :=
  (parseLit value).map (fun p => p.1.toQ * 10 ^ sexp p.2)

/-! ## IEEE-binary64 model for `parse_number`

Python's `float` is an IEEE-754 binary64.  `parse_number_float` re-runs the
parse pipeline through a binary64 model with both rounding steps of the
source made explicit: `float(match.group(1))` / `float(clean)` first rounds
the decimal literal, and the multiplication by the magnitude suffix then
rounds the exact product of that *already rounded* value with the
exactly-representable multiplier `1e3 … 1e12`.  Each rounding step
overflows to a signed infinity at magnitude `2^1024 - 2^970`; in-range
values are rounded to a 53-bit significand by round-to-nearest,
ties-to-even (`rnd53`).  The subnormal range is modelled at full
precision, which only matters below `2^-1021`. -/

/-- The smallest magnitude at which a binary64 rounding step overflows to
infinity. -/
def ovfT : ℚ := 2 ^ 1024 - 2 ^ 970

/-- A Python float: either a finite value or a signed infinity. -/
inductive FloatVal where
  | fin (q : ℚ)
  | posInf
  | negInf
  deriving DecidableEq, Repr

/-- Round half to even (the rounding of IEEE arithmetic, of Python's
`round` and of `%.4f` formatting). -/
def rhe (q : ℚ) : ℤ :=
  if q - ⌊q⌋ < 1 / 2 then ⌊q⌋
  else if (1 : ℚ) / 2 < q - ⌊q⌋ then ⌊q⌋ + 1
  else if ⌊q⌋ % 2 = 0 then ⌊q⌋ else ⌊q⌋ + 1

/-- Round a positive rational to 53 significant bits: scale into
`[2^52, 2^53)`, round to the nearest integer with ties to even, scale
back. -/
def rnd53Pos (a : ℚ) : ℚ :=
  (rhe (a / 2 ^ (Int.log 2 a - 52)) : ℚ) * 2 ^ (Int.log 2 a - 52)

/-- Round to the nearest binary64 significand (53 significant bits, ties
to even), by sign. -/
def rnd53 (q : ℚ) : ℚ :=
  if q = 0 then 0 else (if q < 0 then -1 else 1) * rnd53Pos |q|

/-- One binary64 rounding step: overflow to a signed infinity at `ovfT`,
otherwise round to 53 significant bits. -/
def rndF (q : ℚ) : FloatVal :=
  if ovfT ≤ q then .posInf
  else if q ≤ -ovfT then .negInf
  else .fin (rnd53 q)

/-- IEEE multiplication of a float by the exact power of ten `10 ^ e` (the
magnitude multipliers `1e3 … 1e12` are exactly representable): a single
rounding of the exact product. -/
def fmulPow (v : FloatVal) (e : Nat) : FloatVal :=
  match v with
  | .fin d => rndF (d * 10 ^ e)
  | .posInf => .posInf
  | .negInf => .negInf

/-- `parse_number` through the binary64 model: the scanned literal is
rounded first (`float(match.group(1))` / `float(clean)`), and the result is
then multiplied by the magnitude suffix; each step rounds and can
overflow. -/
def parse_number_float (value : String) : Option FloatVal :=
  (parseLit value).map (fun p => fmulPow (rndF p.1.toQ) (sexp p.2))

/-! ## `format_number` (`src/app.py` lines 79–92)

`format_number` is modelled on `Option ℚ` (`None` or a numeric value); the
defensive `str(value)` branch for non-numeric input is outside the model.
`f"{num:,.4f}"` rounds to 4 decimal places with the round-half-even rule;
here the rounding of the exact value stands in for the rounding of the
binary64 (they agree away from ties of the double, in particular on every
value appearing in the claims). -/

/-- The decimal digit character for `d ∈ [0, 9]`. -/
def digitChar (d : Nat) : Char :=
  if d = 0 then '0' else if d = 1 then '1' else if d = 2 then '2'
  else if d = 3 then '3' else if d = 4 then '4' else if d = 5 then '5'
  else if d = 6 then '6' else if d = 7 then '7' else if d = 8 then '8' else '9'

/-- Decimal digits of `n`, most significant first (fuel-based so that it
reduces by `decide`). -/
def natDigitsAux : Nat → Nat → List Char
  | 0, _ => []
  | fuel + 1, n =>
    if n = 0 then [] else natDigitsAux fuel (n / 10) ++ [digitChar (n % 10)]

/-- Decimal digit string of a natural number. -/
def natDigits (n : Nat) : List Char :=
  if n = 0 then ['0'] else natDigitsAux n n

/-- Insert a comma after every three characters of a reversed digit list. -/
def group3Rev : List Char → List Char
  | a :: b :: c :: d :: rest => a :: b :: c :: ',' :: group3Rev (d :: rest)
  | l => l

/-- Thousands grouping: `f"{n:,}"` on a digit string. -/
def addCommas (ds : List Char) : List Char :=
  (group3Rev ds.reverse).reverse

/-- Python `round(x, 1)`. -/
def round1 (q : ℚ) : ℚ :=
  (rhe (q * 10) : ℚ) / 10

/-- The exact 4 fractional digits printed by `f"{num:,.4f}"`: the zero-padded
decimal rendering of `m ∈ [0, 9999]`. -/
def frac4 (m : Nat) : List Char :=
  [digitChar (m / 1000 % 10), digitChar (m / 100 % 10), digitChar (m / 10 % 10), digitChar (m % 10)]

/-- `format_number` from `src/app.py`: `None ↦ ""`; integral values render
as `f"{int(num):,}"`; other values render as `f"{num:,.4f}"` followed by
`.rstrip("0").rstrip(".")`. -/
def format_number : Option ℚ → String
  | none => ""
  | some q =>
    if q.den = 1 then
      String.mk ((if q < 0 then ['-'] else []) ++ addCommas (natDigits q.num.natAbs))
    else
      let z := rhe (q * 10000)
      let n := z.natAbs
      let s := (if z < 0 then ['-'] else [])
        ++ addCommas (natDigits (n / 10000)) ++ ['.'] ++ frac4 (n % 10000)
      String.mk (rstripChar '.' (rstripChar '0' s))

/-! ## The question catalog (`src/app.py` lines 126–257)

Only the fields the core logic reads are modelled: `id` and `true_value`
(`text`, `unit` and `unit_kind` are display-only). -/

/-- A catalog entry (`id`, `true_value`). -/
structure Question where
  id : String
  true_value : ℚ
  deriving DecidableEq, Repr

/-- The fixed catalog `QUESTIONS` with its twenty entries. -/
def QUESTIONS : List Question :=
  [⟨"q1", 42441 / 10000⟩,
   ⟨"q2", 13637000000⟩,
   ⟨"q3", 107⟩,
   ⟨"q4", 10984⟩,
   ⟨"q5", 4753490 / 20⟩,
   ⟨"q6", 145872256⟩,
   ⟨"q7", 615⟩,
   ⟨"q8", 1517⟩,
   ⟨"q9", 351500000000⟩,
   ⟨"q10", 7426 / 100⟩,
   ⟨"q11", 894⟩,
   ⟨"q12", 19653000000⟩,
   ⟨"q13", 550000000⟩,
   ⟨"q14", 369548⟩,
   ⟨"q15", 811400000⟩,
   ⟨"q16", 1410518000000⟩,
   ⟨"q17", 205⟩,
   ⟨"q18", 3500000000⟩,
   ⟨"q19", 226679700⟩,
   ⟨"q20", 942⟩]

/-- `TOTAL_QUESTIONS = len(QUESTIONS)`. -/
def TOTAL_QUESTIONS : Nat := QUESTIONS.length

/-! ## The session (`flask.session`) -/

/-- The unit-system display preference. -/
inductive UnitSystem where
  | metric
  | imperial
  deriving DecidableEq, Repr

/-- A user's interval answer for one question. -/
structure Interval where
  lower : ℚ
  upper : ℚ
  deriving DecidableEq, Repr

/-- The per-run session store.  The Python session is a string-keyed dict;
`answers` models `session["answers"]` (a missing key and an empty dict
behave identically in every read of the source, so both are `[]`),
`statsSaved` models `session.get("stats_saved", False)` and `unitSystem`
models `session.get("unit_system")`. -/
structure Sess where
  answers : List (String × Interval)
  statsSaved : Bool
  unitSystem : Option UnitSystem
  deriving DecidableEq, Repr

/-- The session produced by `session.clear()` followed by
`session["answers"] = {}` and `session["stats_saved"] = False`. -/
def Sess.fresh : Sess := ⟨[], false, none⟩

/-- Python-dict insertion: replace the value in place if the key is
present, else append the pair. -/
def setAns (l : List (String × Interval)) (k : String) (v : Interval) :
    List (String × Interval) :=
  if (l.map Prod.fst).contains k then
    l.map (fun p => if p.1 = k then (k, v) else p)
  else l ++ [(k, v)]

/-- `answers.get(qid)`: first value stored under `k`. -/
def lookupA (l : List (String × Interval)) (k : String) : Option Interval :=
  match l with
  | [] => none
  | p :: rest => if p.1 = k then some p.2 else lookupA rest k

/-! ## The `/question/<index>` handler (`src/app.py` lines 299–383) -/

/-- The POST body of the question form: the raw `lower` and `upper` fields
and the optional `unit_system` field. -/
structure QForm where
  lower : String
  upper : String
  unit_system : Option String
  deriving DecidableEq, Repr

/-- The request method for `/question/<index>`. -/
inductive QMethod where
  | get
  | post (form : QForm)
  deriving DecidableEq, Repr

/-- The handler's observable response (template arguments other than the
re-displayed raw strings are render-only and omitted). -/
inductive QResp where
  | redirectResults
  | redirectQuestion (i : Nat)
  | renderError (lower_value upper_value : String)
  | renderForm
  deriving DecidableEq, Repr

/-- A placeholder entry for the unreachable `QUESTIONS[index]` lookup
failure (the handler indexes only after checking `index < TOTAL_QUESTIONS`). -/
def dummyQ : Question := ⟨"", 0⟩

/-- The `/question/<int:index>` handler.  The Flask `<int:index>` converter
only produces non-negative integers, so `index` is a `Nat` and the
source's `index < 0` test is vacuous.  Mirrors the source order: reset at
index 0, bounds guard, store the posted `unit_system`, parse, range-check,
store the answer, advance. -/
def question_route (index : Nat) (m : QMethod) (s0 : Sess) : QResp × Sess :=
  let s := if index = 0 then Sess.fresh else s0
  if TOTAL_QUESTIONS ≤ index then (.redirectResults, s)
  else
    let q := (QUESTIONS[index]?).getD dummyQ
    match m with
    | .get => (.renderForm, s)
    | .post f =>
      let raw_lower := pyStripS f.lower
      let raw_upper := pyStripS f.upper
      let s :=
        if f.unit_system = some "metric" then { s with unitSystem := some .metric }
        else if f.unit_system = some "imperial" then { s with unitSystem := some .imperial }
        else s
      match parse_number raw_lower, parse_number raw_upper with
      | some lower, some upper =>
        if upper < lower then (.renderError raw_lower raw_upper, s)
        else
          let s := { s with answers := setAns s.answers q.id ⟨lower, upper⟩ }
          if index + 1 < TOTAL_QUESTIONS then (.redirectQuestion (index + 1), s)
          else (.redirectResults, s)
      | _, _ => (.renderError raw_lower raw_upper, s)

/-! ## The statistics store (`src/app.py` lines 258–287) -/

/-- Per-question cumulative counters. -/
structure QStat where
  attempts : Nat
  correct : Nat
  deriving DecidableEq, Repr

/-- The decoded statistics record.  The `"history"` key is defaulted by
`load_stats` and never read or written anywhere else, so it is omitted. -/
structure StatsD where
  total_runs : Nat
  total_correct : Nat
  per_question : List (String × QStat)
  deriving DecidableEq, Repr

/-- First value stored under `k` in a per-question table. -/
def lookupQ (l : List (String × QStat)) (k : String) : Option QStat :=
  match l with
  | [] => none
  | p :: rest => if p.1 = k then some p.2 else lookupQ rest k

/-- `data["per_question"].setdefault(qid, {"attempts": 0, "correct": 0})`. -/
def setQDefault (l : List (String × QStat)) (k : String) : List (String × QStat) :=
  if (lookupQ l k).isSome then l else l ++ [(k, ⟨0, 0⟩)]

/-- The per-question defaulting loop of `load_stats`: ensure an entry for
every catalog question id. -/
def addDefaults (d : StatsD) : StatsD :=
  { d with per_question := QUESTIONS.foldl (fun l q => setQDefault l q.id) d.per_question }

/-- Increment `attempts` (and `correct` when `c`) of the entry under `k`.
The source raises `KeyError` on a missing key; the commit loop only touches
catalog ids, which the defaulting loop has just inserted, so the missing
case cannot arise there and is a no-op here. -/
def bumpQ (l : List (String × QStat)) (k : String) (c : Bool) : List (String × QStat) :=
  l.map (fun p =>
    if p.1 = k then (p.1, ⟨p.2.attempts + 1, p.2.correct + (if c then 1 else 0)⟩) else p)

/-! ## `load_stats` over raw file contents (`src/app.py` lines 261–281)

`results_route` below takes the decoded record directly (`json.dump` /
`json.load` round-trip a record unchanged); `load_stats` here additionally
models the decode layer for the store-corruption claims. -/

/-- Python error outcomes that the handlers can raise. -/
inductive PyErr where
  | typeError
  | attributeError
  | zeroDivision
  deriving DecidableEq, Repr

/-- The backing store's content as seen by `load_stats`: absent file,
syntactically invalid JSON (`json.load` raises `JSONDecodeError`),
well-formed JSON that is not an object, or a JSON object (modelled with
the stats fields it may carry; each may be absent). -/
inductive FileContent where
  | missing
  | invalidJson
  | jsonNonObject
  | jsonObject (total_runs : Option Nat) (total_correct : Option Nat)
      (per_question : Option (List (String × QStat)))
  deriving DecidableEq, Repr

/-- `load_stats`: a missing file and a `JSONDecodeError` both fall back to
`data = {}`; `data.setdefault(...)` on a non-dict raises `AttributeError`;
otherwise each absent field is defaulted and a zero entry is ensured for
every catalog question. -/
def load_stats (f : FileContent) : Except PyErr StatsD :=
  match f with
  | .missing => .ok (addDefaults ⟨0, 0, []⟩)
  | .invalidJson => .ok (addDefaults ⟨0, 0, []⟩)
  | .jsonNonObject => .error .attributeError
  | .jsonObject tr tc pq => .ok (addDefaults ⟨tr.getD 0, tc.getD 0, pq.getD []⟩)

/-! ## The `/results` handler (`src/app.py` lines 386–482) -/

/-- One entry of `per_question_results`. -/
structure PQResult where
  id : String
  lower : ℚ
  upper : ℚ
  true_value : ℚ
  is_correct : Bool
  deriving DecidableEq, Repr

/-- The interpretation text, keyed by its score band. -/
inductive Interp where
  | severe
  | over
  | mild
  | under
  | neutral
  deriving DecidableEq, Repr

/-- The interpretation if-chain of the source. -/
def interpOf (p : ℚ) : Interp :=
  if p < 60 then .severe
  else if p < 80 then .over
  else if p < 95 then .mild
  else if p = 100 then .under
  else .neutral

/-- `is_correct = lower <= true_value <= upper`, inclusive at both ends. -/
def correctB (q : Question) (iv : Interval) : Bool :=
  iv.lower ≤ q.true_value ∧ q.true_value ≤ iv.upper

/-- The results row built for question `q` from the answer `iv`. -/
def mkPQ (q : Question) (iv : Interval) : PQResult :=
  ⟨q.id, iv.lower, iv.upper, q.true_value, correctB q iv⟩

/-- The scoring loop: for each catalog question, look up the session answer
(`answers.get(qid)`; using a missing answer raises `TypeError`), judge
`lower <= true_value <= upper`, collect the row and count the hits. -/
def scoreLoop (qs : List Question) (ans : List (String × Interval)) :
    Except PyErr (List PQResult × Nat) :=
  match qs with
  | [] => .ok ([], 0)
  | q :: rest =>
    match lookupA ans q.id with
    | none => .error .typeError
    | some iv =>
      match scoreLoop rest ans with
      | .error e => .error e
      | .ok (rs, n) =>
        .ok (mkPQ q iv :: rs, (if correctB q iv then 1 else 0) + n)

/-- The rendered results page (render-only strings omitted). -/
structure ResultsView where
  correct_count : Nat
  score_pct : ℚ
  interpretation : Interp
  per_question_results : List PQResult
  global_avg : ℚ
  total_runs : Nat
  per_question_stats : List (String × ℚ × Nat)
  deriving DecidableEq, Repr

/-- The `/results` response: a redirect to the entry point or the page. -/
inductive RResp where
  | redirectIndex
  | page (v : ResultsView)
  deriving DecidableEq, Repr

/-- The `/results` handler.  `disk` is the decoded persistent record; the
returned `StatsD` is the store after the request (written back only when
the commit branch ran).  The unguarded division
`stats["total_correct"] / (stats["total_runs"] * TOTAL_QUESTIONS)` is
modelled by the explicit `zeroDivision` error. -/
def results_route (s : Sess) (disk : StatsD) :
    Except PyErr (RResp × Sess × StatsD) :=
  if s.answers.isEmpty ∨ s.answers.length ≠ TOTAL_QUESTIONS then
    .ok (.redirectIndex, s, disk)
  else
    match scoreLoop QUESTIONS s.answers with
    | .error e => .error e
    | .ok (pqs, correct_count) =>
      let score_pct := round1 (((correct_count : ℚ) / (TOTAL_QUESTIONS : ℚ)) * 100)
      let interpretation := interpOf score_pct
      let stats0 := addDefaults disk
      let st :=
        if ¬ s.statsSaved then
          ({ total_runs := stats0.total_runs + 1,
             total_correct := stats0.total_correct + correct_count,
             per_question := pqs.foldl (fun l r => bumpQ l r.id r.is_correct)
               stats0.per_question : StatsD },
           { s with statsSaved := true }, true)
        else (stats0, s, false)
      let stats1 := st.1
      let s1 := st.2.1
      let disk1 := if st.2.2 then stats1 else disk
      if stats1.total_runs * TOTAL_QUESTIONS = 0 then .error .zeroDivision
      else
        let global_avg := round1
          (((stats1.total_correct : ℚ) / ((stats1.total_runs * TOTAL_QUESTIONS : Nat) : ℚ)) * 100)
        let per_question_stats := QUESTIONS.map (fun q =>
          let qs := (lookupQ stats1.per_question q.id).getD ⟨0, 0⟩
          (q.id,
           if 0 < qs.attempts then round1 (((qs.correct : ℚ) / (qs.attempts : ℚ)) * 100) else 0,
           qs.attempts))
        .ok (.page
          { correct_count := correct_count,
            score_pct := score_pct,
            interpretation := interpretation,
            per_question_results := pqs,
            global_avg := global_avg,
            total_runs := stats1.total_runs,
            per_question_stats := per_question_stats },
          s1, disk1)

/-- Repeated viewing of `/results`: thread the session and the store
through `k` successive requests. -/
def viewResults (k : Nat) (s : Sess) (d : StatsD) : Except PyErr (Sess × StatsD) :=
  match k with
  | 0 => .ok (s, d)
  | k + 1 =>
    match results_route s d with
    | .error e => .error e
    | .ok (_, s', d') => viewResults k s' d'

/-! ## A sequential quiz run -/

/-- Whether a posted pair of raw bounds parses to a valid interval (both
bounds parse after the form's `strip()`, and `lower <= upper`). -/
def goodForm (p : String × String) : Bool :=
  match parse_number (pyStripS p.1), parse_number (pyStripS p.2) with
  | some lo, some hi => lo ≤ hi
  | _, _ => false

/-- One POST of the question form (no `unit_system` field), keeping only
the resulting session. -/
def runStep (p : String × String) (i : Nat) (s : Sess) : Sess :=
  (question_route i (.post ⟨p.1, p.2, none⟩) s).2

/-- POST the forms `ivs i, ivs (i+1), …` to questions `i, i+1, …` up to the
end of the catalog. -/
def runFrom (ivs : Nat → String × String) (i : Nat) (s : Sess) : Sess :=
  if _ : i < TOTAL_QUESTIONS then runFrom ivs (i + 1) (runStep (ivs i) i s) else s
  termination_by TOTAL_QUESTIONS - i

/-! ## The committed run, in closed form -/

/-- Whether the store has an entry for every catalog question id. -/
def hasAll (d : StatsD) : Prop :=
  ∀ q ∈ QUESTIONS, (lookupQ d.per_question q.id).isSome

/-- The `per_question_results` rows of a run answering `f q` to `q`. -/
def runPQ (f : Question → Interval) : List PQResult :=
  QUESTIONS.map (fun q => mkPQ q (f q))

/-- The number of correct answers of a run answering `f q` to `q`. -/
def runCorrect (f : Question → Interval) : Nat :=
  QUESTIONS.countP (fun q => correctB q (f q))

/-- The store written by the commit branch: `total_runs + 1`, this run's
hits added to `total_correct`, and each catalog question's counters bumped
once. -/
def commitD (d : StatsD) (f : Question → Interval) : StatsD :=
  { total_runs := (addDefaults d).total_runs + 1,
    total_correct := (addDefaults d).total_correct + runCorrect f,
    per_question := (runPQ f).foldl (fun l r => bumpQ l r.id r.is_correct)
      (addDefaults d).per_question }

/-- The page rendered for a completed, not yet committed session answering
`f q` to `q`, over the prior store `d`. -/
def viewOf (d : StatsD) (f : Question → Interval) : ResultsView :=
  { correct_count := runCorrect f,
    score_pct := round1 (((runCorrect f : ℚ) / (TOTAL_QUESTIONS : ℚ)) * 100),
    interpretation := interpOf (round1 (((runCorrect f : ℚ) / (TOTAL_QUESTIONS : ℚ)) * 100)),
    per_question_results := runPQ f,
    global_avg := round1 ((((commitD d f).total_correct : ℚ) /
      (((commitD d f).total_runs * TOTAL_QUESTIONS : Nat) : ℚ)) * 100),
    total_runs := (commitD d f).total_runs,
    per_question_stats := QUESTIONS.map (fun q =>
      let qs := (lookupQ (commitD d f).per_question q.id).getD ⟨0, 0⟩
      (q.id,
       if 0 < qs.attempts then round1 (((qs.correct : ℚ) / (qs.attempts : ℚ)) * 100) else 0,
       qs.attempts)) }

/-! ## Concrete instances used to exercise the model -/

/-- The answer function putting the degenerate interval `[true_value,
true_value]` on every question. -/
def fAll : Question → Interval := fun q => ⟨q.true_value, q.true_value⟩

/-- A complete answers table: one entry per catalog question, keyed in
catalog order. -/
def answersAll : List (String × Interval) :=
  QUESTIONS.map (fun q => (q.id, fAll q))

/-- The zero-valued statistics record with a zero entry for every catalog
question. -/
def zeroStats : StatsD :=
  ⟨0, 0, QUESTIONS.map (fun q => (q.id, ⟨0, 0⟩))⟩

/-- `"1"` followed by 309 zeros: a decimal literal worth `10^309`, beyond
the largest finite IEEE binary64 (≈ 1.8·10^308). -/
def bigInput : String := String.mk ('1' :: List.replicate 309 '0')

/-! ## Basic catalog facts -/

theorem total_questions_eq : TOTAL_QUESTIONS = 20 := by decide

theorem questions_ids_nodup : (QUESTIONS.map Question.id).Nodup := by decide

/-! ## Association-list lemmas -/

theorem lookupA_append (l l' : List (String × Interval)) (k : String) :
    lookupA (l ++ l') k =
      match lookupA l k with
      | some v => some v
      | none => lookupA l' k := by
  induction l with
  | nil => simp [lookupA]
  | cons p rest ih =>
    by_cases h : p.1 = k <;> simp [lookupA, h, ih]

theorem lookupA_isSome_of_mem {l : List (String × Interval)} {k : String}
    (h : k ∈ l.map Prod.fst) : (lookupA l k).isSome := by
  induction l with
  | nil => simp at h
  | cons p rest ih =>
    simp only [List.map_cons, List.mem_cons] at h
    by_cases hp : p.1 = k
    · simp [lookupA, hp]
    · simp only [lookupA, hp, if_false]
      exact ih (h.resolve_left (fun hh => hp hh.symm))

theorem setAns_not_mem {l : List (String × Interval)} {k : String} (v : Interval)
    (h : k ∉ l.map Prod.fst) : setAns l k v = l ++ [(k, v)] := by
  have hc : (l.map Prod.fst).contains k = false := by
    rw [← Bool.not_eq_true, List.elem_iff]
    exact h
  unfold setAns
  rw [hc]
  simp

theorem map_fst_setAns_not_mem {l : List (String × Interval)} {k : String} (v : Interval)
    (h : k ∉ l.map Prod.fst) :
    (setAns l k v).map Prod.fst = l.map Prod.fst ++ [k] := by
  rw [setAns_not_mem v h]
  simp

/-- Looking up a question id in answers laid out one-per-catalog-question. -/
theorem lookupA_map_of_nodup {qs : List Question} (g : Question → Interval)
    (hnd : (qs.map Question.id).Nodup) {q : Question} (hq : q ∈ qs) :
    lookupA (qs.map (fun q' => (q'.id, g q'))) q.id = some (g q) := by
  induction qs with
  | nil => simp at hq
  | cons q' rest ih =>
    simp only [List.map_cons, List.nodup_cons] at hnd
    rcases List.mem_cons.mp hq with h | h
    · subst h
      simp [lookupA]
    · have hne : q'.id ≠ q.id := by
        intro he
        exact hnd.1 (he ▸ List.mem_map_of_mem Question.id h)
      simp only [List.map_cons, lookupA, hne, if_false]
      exact ih hnd.2 h

theorem lookupQ_append (l l' : List (String × QStat)) (k : String) :
    lookupQ (l ++ l') k =
      match lookupQ l k with
      | some v => some v
      | none => lookupQ l' k := by
  induction l with
  | nil => simp [lookupQ]
  | cons p rest ih =>
    by_cases h : p.1 = k <;> simp [lookupQ, h, ih]

theorem lookupQ_setQDefault_of_isSome {l : List (String × QStat)} {k k' : String}
    (h : (lookupQ l k).isSome) : lookupQ (setQDefault l k') k = lookupQ l k := by
  unfold setQDefault
  split
  · rfl
  · rw [lookupQ_append]
    cases hl : lookupQ l k with
    | some v => rfl
    | none => rw [hl] at h; simp at h

theorem lookupQ_setQDefault_other {l : List (String × QStat)} {k k' : String}
    (h : k' ≠ k) : lookupQ (setQDefault l k') k = lookupQ l k := by
  unfold setQDefault
  split
  · rfl
  · rw [lookupQ_append]
    cases hl : lookupQ l k with
    | some v => rfl
    | none => simp [lookupQ, h]

theorem lookupQ_setQDefault_self (l : List (String × QStat)) (k : String) :
    lookupQ (setQDefault l k) k = some ((lookupQ l k).getD ⟨0, 0⟩) := by
  unfold setQDefault
  split
  · rename_i h
    cases hl : lookupQ l k with
    | some v => simp
    | none => rw [hl] at h; simp at h
  · rw [lookupQ_append]
    cases hl : lookupQ l k with
    | some v => rename_i h; rw [hl] at h; simp at h
    | none => simp [lookupQ]

theorem lookupQ_foldl_setQDefault_of_isSome {qs : List Question}
    {l : List (String × QStat)} {k : String} (h : (lookupQ l k).isSome) :
    lookupQ (qs.foldl (fun l' q => setQDefault l' q.id) l) k = lookupQ l k := by
  induction qs generalizing l with
  | nil => rfl
  | cons q rest ih =>
    simp only [List.foldl_cons]
    rw [ih, lookupQ_setQDefault_of_isSome h]
    rw [lookupQ_setQDefault_of_isSome h]
    exact h

theorem lookupQ_foldl_setQDefault_of_mem {qs : List Question}
    {l : List (String × QStat)} {q : Question} (hq : q ∈ qs) :
    lookupQ (qs.foldl (fun l' q' => setQDefault l' q'.id) l) q.id =
      some ((lookupQ l q.id).getD ⟨0, 0⟩) := by
  induction qs generalizing l with
  | nil => simp at hq
  | cons q' rest ih =>
    simp only [List.foldl_cons]
    by_cases he : q'.id = q.id
    · rw [lookupQ_foldl_setQDefault_of_isSome (by rw [he, lookupQ_setQDefault_self]; rfl)]
      rw [he, lookupQ_setQDefault_self]
    · rcases List.mem_cons.mp hq with h | h
      · exact absurd (h ▸ rfl) he
      · rw [ih h, lookupQ_setQDefault_other he]

theorem lookupQ_addDefaults_of_mem (d : StatsD) {q : Question} (hq : q ∈ QUESTIONS) :
    lookupQ (addDefaults d).per_question q.id =
      some ((lookupQ d.per_question q.id).getD ⟨0, 0⟩) := by
  simp only [addDefaults]
  exact lookupQ_foldl_setQDefault_of_mem hq

theorem hasAll_addDefaults (d : StatsD) : hasAll (addDefaults d) := by
  intro q hq
  rw [lookupQ_addDefaults_of_mem d hq]
  rfl

theorem setQDefault_of_isSome {l : List (String × QStat)} {k : String}
    (h : (lookupQ l k).isSome) : setQDefault l k = l := by
  unfold setQDefault
  simp [h]

theorem addDefaults_of_hasAll {d : StatsD} (h : hasAll d) : addDefaults d = d := by
  unfold addDefaults hasAll at *
  have : ∀ qs : List Question, (∀ q ∈ qs, (lookupQ d.per_question q.id).isSome) →
      qs.foldl (fun l q => setQDefault l q.id) d.per_question = d.per_question := by
    intro qs
    induction qs with
    | nil => intro _; rfl
    | cons q rest ih =>
      intro hall
      simp only [List.foldl_cons]
      rw [setQDefault_of_isSome (hall q (by simp)), ih (fun q' hq' => hall q' (by simp [hq']))]
  rw [this QUESTIONS h]

/-! ## Commit-loop lemmas -/

theorem lookupQ_bumpQ_self (l : List (String × QStat)) (k : String) (c : Bool) :
    lookupQ (bumpQ l k c) k =
      (lookupQ l k).map (fun st => ⟨st.attempts + 1, st.correct + (if c then 1 else 0)⟩) := by
  induction l with
  | nil => rfl
  | cons p rest ih =>
    by_cases h : p.1 = k <;> simp [bumpQ, lookupQ, h] at ih ⊢ <;> simp [ih]

theorem lookupQ_bumpQ_other {l : List (String × QStat)} {k k' : String} (c : Bool)
    (h : k' ≠ k) : lookupQ (bumpQ l k' c) k = lookupQ l k := by
  induction l with
  | nil => rfl
  | cons p rest ih =>
    simp only [bumpQ, List.map_cons] at ih ⊢
    by_cases hk : p.1 = k
    · have hp : ¬ p.1 = k' := by
        intro he
        exact h (by rw [← he, hk])
      have hkk : ¬ k = k' := by
        rw [← hk]
        exact hp
      simp [lookupQ, hp, hk, hkk]
    · by_cases hp : p.1 = k' <;> simp [lookupQ, hp, hk, ih, h]

theorem lookupQ_foldl_bumpQ_not_mem {rs : List PQResult} {l : List (String × QStat)}
    {k : String} (h : k ∉ rs.map PQResult.id) :
    lookupQ (rs.foldl (fun l' r => bumpQ l' r.id r.is_correct) l) k = lookupQ l k := by
  induction rs generalizing l with
  | nil => rfl
  | cons r rest ih =>
    simp only [List.map_cons, List.mem_cons] at h
    push_neg at h
    simp only [List.foldl_cons]
    rw [ih h.2, lookupQ_bumpQ_other _ (fun he => h.1 he.symm)]

theorem lookupQ_foldl_bumpQ_of_mem {rs : List PQResult} {l : List (String × QStat)}
    (hnd : (rs.map PQResult.id).Nodup) {r : PQResult} (hr : r ∈ rs) :
    lookupQ (rs.foldl (fun l' r' => bumpQ l' r'.id r'.is_correct) l) r.id =
      (lookupQ l r.id).map
        (fun st => ⟨st.attempts + 1, st.correct + (if r.is_correct then 1 else 0)⟩) := by
  induction rs generalizing l with
  | nil => simp at hr
  | cons r' rest ih =>
    simp only [List.map_cons, List.nodup_cons] at hnd
    simp only [List.foldl_cons]
    rcases List.mem_cons.mp hr with h | h
    · subst h
      rw [lookupQ_foldl_bumpQ_not_mem hnd.1, lookupQ_bumpQ_self]
    · have hne : r'.id ≠ r.id := by
        intro he
        exact hnd.1 (he ▸ List.mem_map_of_mem PQResult.id h)
      rw [ih hnd.2 h, lookupQ_bumpQ_other _ hne]

theorem isSome_lookupQ_bumpQ {l : List (String × QStat)} {k k' : String} (c : Bool)
    (h : (lookupQ l k).isSome) : (lookupQ (bumpQ l k' c) k).isSome := by
  by_cases he : k' = k
  · subst he
    rw [lookupQ_bumpQ_self]
    cases hl : lookupQ l k' with
    | none => rw [hl] at h; simp at h
    | some v => simp
  · rw [lookupQ_bumpQ_other _ he]
    exact h

theorem isSome_lookupQ_foldl_bumpQ {rs : List PQResult} {l : List (String × QStat)}
    {k : String} (h : (lookupQ l k).isSome) :
    (lookupQ (rs.foldl (fun l' r => bumpQ l' r.id r.is_correct) l) k).isSome := by
  induction rs generalizing l with
  | nil => exact h
  | cons r rest ih =>
    simp only [List.foldl_cons]
    exact ih (isSome_lookupQ_bumpQ _ h)

/-! ## Scoring-loop lemmas -/

theorem scoreLoop_eq_of_lookup {qs : List Question} {ans : List (String × Interval)}
    {f : Question → Interval} (h : ∀ q ∈ qs, lookupA ans q.id = some (f q)) :
    scoreLoop qs ans =
      .ok (qs.map (fun q => mkPQ q (f q)), qs.countP (fun q => correctB q (f q))) := by
  induction qs with
  | nil => rfl
  | cons q rest ih =>
    have hq : lookupA ans q.id = some (f q) := h q (by simp)
    have hrest := ih (fun q' hq' => h q' (by simp [hq']))
    simp only [scoreLoop, hq, hrest, List.map_cons, List.countP_cons]
    by_cases hc : correctB q (f q) <;> simp [hc] <;> omega

theorem scoreLoop_isOk_of_isSome {qs : List Question} {ans : List (String × Interval)}
    (h : ∀ q ∈ qs, (lookupA ans q.id).isSome) :
    ∃ rs n, scoreLoop qs ans = .ok (rs, n) := by
  induction qs with
  | nil => exact ⟨[], 0, rfl⟩
  | cons q rest ih =>
    obtain ⟨iv, hiv⟩ := Option.isSome_iff_exists.mp (h q (by simp))
    obtain ⟨rs, n, hrs⟩ := ih (fun q' hq' => h q' (by simp [hq']))
    exact ⟨mkPQ q iv :: rs, (if correctB q iv then 1 else 0) + n,
      by simp only [scoreLoop, hiv, hrs]⟩

/-! ## Characterising the `/results` handler -/

theorem answers_guard_false {s : Sess} (hlen : s.answers.length = TOTAL_QUESTIONS) :
    ¬(s.answers.isEmpty ∨ s.answers.length ≠ TOTAL_QUESTIONS) := by
  rintro (h | h)
  · rw [List.isEmpty_iff] at h
    rw [h] at hlen
    rw [total_questions_eq] at hlen
    simp at hlen
  · exact h hlen

/-- A completed, not yet committed session: the handler renders the page,
marks the session committed and writes the committed store. -/
theorem results_main (s : Sess) (d : StatsD) (f : Question → Interval)
    (hsv : s.statsSaved = false) (hlen : s.answers.length = TOTAL_QUESTIONS)
    (hf : ∀ q ∈ QUESTIONS, lookupA s.answers q.id = some (f q)) :
    results_route s d =
      .ok (.page (viewOf d f), { s with statsSaved := true }, commitD d f) := by
  unfold results_route
  rw [if_neg (answers_guard_false hlen)]
  rw [scoreLoop_eq_of_lookup hf]
  simp only [hsv]
  rw [if_pos (show ¬false = true by simp)]
  rw [if_neg (by simp only [total_questions_eq]; omega)]
  unfold viewOf commitD runPQ runCorrect
  rfl

/-- A completed, already committed session over a store that has every
catalog id and at least one run: the handler renders a page and leaves the
session and the store unchanged. -/
theorem results_committed (s : Sess) (d : StatsD)
    (hsv : s.statsSaved = true) (hlen : s.answers.length = TOTAL_QUESTIONS)
    (hf : ∀ q ∈ QUESTIONS, (lookupA s.answers q.id).isSome)
    (hall : hasAll d) (htr : d.total_runs ≠ 0) :
    ∃ v, results_route s d = .ok (.page v, s, d) := by
  obtain ⟨rs, n, hs⟩ := scoreLoop_isOk_of_isSome hf
  unfold results_route
  rw [if_neg (answers_guard_false hlen)]
  rw [hs]
  simp only [hsv]
  rw [if_neg (show ¬¬True by simp)]
  rw [addDefaults_of_hasAll hall]
  rw [if_neg (by simp only [total_questions_eq]; omega)]
  exact ⟨_, rfl⟩

theorem commitD_total_runs (d : StatsD) (f : Question → Interval) :
    (commitD d f).total_runs = d.total_runs + 1 := by
  simp only [commitD, addDefaults]

theorem commitD_total_correct (d : StatsD) (f : Question → Interval) :
    (commitD d f).total_correct = d.total_correct + runCorrect f := by
  simp only [commitD, addDefaults]

theorem commitD_total_runs_ne_zero (d : StatsD) (f : Question → Interval) :
    (commitD d f).total_runs ≠ 0 := by
  rw [commitD_total_runs]
  omega

theorem hasAll_commitD (d : StatsD) (f : Question → Interval) : hasAll (commitD d f) := by
  intro q hq
  simp only [commitD]
  exact isSome_lookupQ_foldl_bumpQ (hasAll_addDefaults d q hq)

theorem runPQ_ids (f : Question → Interval) :
    (runPQ f).map PQResult.id = QUESTIONS.map Question.id := by
  unfold runPQ
  rw [List.map_map]
  rfl

/-- Each catalog question's counters after a commit: `attempts` up by one,
`correct` up by this run's correctness. -/
theorem lookupQ_commitD (d : StatsD) (f : Question → Interval) {q : Question}
    (hq : q ∈ QUESTIONS) :
    lookupQ (commitD d f).per_question q.id =
      some ⟨((lookupQ d.per_question q.id).getD ⟨0, 0⟩).attempts + 1,
        ((lookupQ d.per_question q.id).getD ⟨0, 0⟩).correct
          + (if correctB q (f q) then 1 else 0)⟩ := by
  unfold commitD
  have hnd : ((runPQ f).map PQResult.id).Nodup := by
    rw [runPQ_ids]
    exact questions_ids_nodup
  have hr : mkPQ q (f q) ∈ runPQ f := List.mem_map_of_mem _ hq
  have := lookupQ_foldl_bumpQ_of_mem (l := (addDefaults d).per_question) hnd hr
  simp only [mkPQ] at this
  rw [this, lookupQ_addDefaults_of_mem d hq]
  rfl

/-! ## Parse-value helpers -/

theorem parse_number_eq_none {s : String} (h : parseLit s = none) :
    parse_number s = none := by
  simp [parse_number, h]

theorem parse_number_eq_some {s : String} {l : NumLit} {oc : Option Char}
    (h : parseLit s = some (l, oc)) :
    parse_number s = some (l.toQ * 10 ^ sexp oc) := by
  simp [parse_number, h]

theorem parse_number_float_eq_some {s : String} {l : NumLit} {oc : Option Char}
    (h : parseLit s = some (l, oc)) :
    parse_number_float s = some (fmulPow (rndF l.toQ) (sexp oc)) := by
  simp [parse_number_float, h]

theorem sexp_ge_one (oc : Option Char) : (1 : ℚ) ≤ 10 ^ sexp oc := by
  exact one_le_pow₀ (by norm_num)

/-! ## The `/results` division by zero -/

/-- A completed but already committed session over a store recording zero
runs: the global-average division raises `ZeroDivisionError`. -/
theorem results_zero_div (s : Sess) (d : StatsD)
    (hsv : s.statsSaved = true) (hlen : s.answers.length = TOTAL_QUESTIONS)
    (hf : ∀ q ∈ QUESTIONS, (lookupA s.answers q.id).isSome)
    (htr : d.total_runs = 0) :
    results_route s d = .error .zeroDivision := by
  obtain ⟨rs, n, hs⟩ := scoreLoop_isOk_of_isSome hf
  unfold results_route
  rw [if_neg (answers_guard_false hlen)]
  rw [hs]
  simp only [hsv]
  rw [if_neg (show ¬¬True by simp)]
  rw [if_pos (by simp only [addDefaults, htr, Nat.zero_mul])]

/-! ## `/question/<index>` lemmas -/

/-- Every request to index 0 behaves as if the prior session were fresh:
the handler clears the session before doing anything else. -/
theorem question_route_zero_ignores_session (m : QMethod) (s : Sess) :
    question_route 0 m s = question_route 0 m Sess.fresh := by
  unfold question_route
  rfl

theorem question_route_zero_get (s : Sess) :
    question_route 0 .get s = (.renderForm, Sess.fresh) := by
  unfold question_route
  rw [if_pos rfl, if_neg (by decide)]

theorem goodForm_iff (p : String × String) :
    goodForm p = true ↔ ∃ lo hi, parse_number (pyStripS p.1) = some lo ∧
      parse_number (pyStripS p.2) = some hi ∧ lo ≤ hi := by
  unfold goodForm
  cases h1 : parse_number (pyStripS p.1) <;> cases h2 : parse_number (pyStripS p.2) <;>
    simp [h1, h2]

/-- A valid POST at a not-first index: the parsed interval is stored under
the question's id, everything else in the session is untouched. -/
theorem question_route_post_ok {i : Nat} (hi : i < TOTAL_QUESTIONS) {p : String × String}
    {lo hi' : ℚ} (s : Sess)
    (h1 : parse_number (pyStripS p.1) = some lo)
    (h2 : parse_number (pyStripS p.2) = some hi') (hle : lo ≤ hi') :
    question_route i (.post ⟨p.1, p.2, none⟩) s =
      ((if i + 1 < TOTAL_QUESTIONS then .redirectQuestion (i + 1) else .redirectResults),
        { (if i = 0 then Sess.fresh else s) with
            answers := setAns (if i = 0 then Sess.fresh else s).answers
              ((QUESTIONS[i]?).getD dummyQ).id ⟨lo, hi'⟩ }) := by
  unfold question_route
  rw [if_neg (not_le.mpr hi)]
  simp only [h1, h2]
  rw [if_neg (not_lt.mpr hle)]
  rw [if_neg (show ¬(none : Option String) = some "metric" by simp)]
  rw [if_neg (show ¬(none : Option String) = some "imperial" by simp)]
  by_cases hc : i + 1 < TOTAL_QUESTIONS <;> simp [hc]

/-- `runStep` under a valid form: some interval is appended under the
current question's id. -/
theorem runStep_eq {i : Nat} (hi : i < TOTAL_QUESTIONS) {p : String × String}
    (hg : goodForm p = true) (s : Sess) :
    ∃ iv, runStep p i s =
      { (if i = 0 then Sess.fresh else s) with
          answers := setAns (if i = 0 then Sess.fresh else s).answers
            ((QUESTIONS[i]?).getD dummyQ).id iv } := by
  obtain ⟨lo, hi', h1, h2, hle⟩ := (goodForm_iff p).mp hg
  exact ⟨⟨lo, hi'⟩, by unfold runStep; rw [question_route_post_ok hi s h1 h2 hle]⟩

theorem nodup_getElem_not_mem_take {l : List String} (hnd : l.Nodup) {k : Nat}
    (hk : k < l.length) : l[k] ∉ l.take k := by
  intro hmem
  have hsplit : l.take k ++ l.drop k = l := List.take_append_drop k l
  have hnd2 : (l.take k ++ l.drop k).Nodup := by rw [hsplit]; exact hnd
  have hdisj := List.disjoint_of_nodup_append hnd2
  have hk2 : 0 < (l.drop k).length := by
    rw [List.length_drop]
    omega
  have : (l.drop k)[0] ∈ l.drop k := List.getElem_mem hk2
  rw [List.getElem_drop] at this
  simp only [Nat.add_zero] at this
  exact hdisj hmem this

/-- The catalog id at index `k` has not been answered in the first `k`
steps. -/
theorem qid_not_mem_take {k : Nat} (hk : k < TOTAL_QUESTIONS) :
    ((QUESTIONS[k]?).getD dummyQ).id ∉ (QUESTIONS.take k).map Question.id := by
  have hk' : k < QUESTIONS.length := hk
  have hq : (QUESTIONS[k]?).getD dummyQ = QUESTIONS[k] := by
    rw [List.getElem?_eq_getElem hk']
    rfl
  rw [hq, List.map_take]
  have hk2 : k < (QUESTIONS.map Question.id).length := by simpa using hk'
  have hid : QUESTIONS[k].id = (QUESTIONS.map Question.id)[k] := by
    rw [List.getElem_map]
  rw [hid]
  exact nodup_getElem_not_mem_take questions_ids_nodup hk2

/-- The invariant of a sequential run: starting after `k ≥ 1` valid steps
with the first `k` catalog ids answered, the remaining steps fill in all
ids in catalog order. -/
theorem runFrom_inv (ivs : Nat → String × String)
    (hg : ∀ i < TOTAL_QUESTIONS, goodForm (ivs i) = true) :
    ∀ m k s, k + m = TOTAL_QUESTIONS → 1 ≤ k →
      s.answers.map Prod.fst = (QUESTIONS.take k).map Question.id →
      s.statsSaved = false →
      (runFrom ivs k s).answers.map Prod.fst = QUESTIONS.map Question.id ∧
        (runFrom ivs k s).statsSaved = false := by
  intro m
  induction m with
  | zero =>
    intro k s hkm _ hkeys hsv
    rw [runFrom, dif_neg (by omega)]
    refine ⟨?_, hsv⟩
    rw [hkeys]
    have hkq : k = QUESTIONS.length := by
      have h20 : k = TOTAL_QUESTIONS := by omega
      exact h20
    rw [hkq, List.take_length]
  | succ m ih =>
    intro k s hkm hk1 hkeys hsv
    have hklt : k < TOTAL_QUESTIONS := by omega
    rw [runFrom, dif_pos hklt]
    obtain ⟨iv, hstep⟩ := runStep_eq hklt (hg k hklt) s
    have hk0 : ¬ k = 0 := by omega
    rw [if_neg hk0] at hstep
    have hnotmem : ((QUESTIONS[k]?).getD dummyQ).id ∉ s.answers.map Prod.fst := by
      rw [hkeys]
      exact qid_not_mem_take hklt
    have hkeys' : (runStep (ivs k) k s).answers.map Prod.fst =
        (QUESTIONS.take (k + 1)).map Question.id := by
      rw [hstep]
      show (setAns s.answers _ iv).map Prod.fst = _
      rw [map_fst_setAns_not_mem iv hnotmem, hkeys]
      have hk' : k < QUESTIONS.length := hklt
      rw [List.take_succ, List.map_append, List.getElem?_eq_getElem hk']
      rfl
    have hsv' : (runStep (ivs k) k s).statsSaved = false := by
      rw [hstep]
      exact hsv
    exact ih (k + 1) _ (by omega) (by omega) hkeys' hsv'

/-- A full sequential run from any prior session: every catalog id is
answered exactly once, in catalog order, and the commit flag is clear. -/
theorem runFrom_zero (ivs : Nat → String × String) (s0 : Sess)
    (hg : ∀ i < TOTAL_QUESTIONS, goodForm (ivs i) = true) :
    (runFrom ivs 0 s0).answers.map Prod.fst = QUESTIONS.map Question.id ∧
      (runFrom ivs 0 s0).statsSaved = false := by
  have h0 : (0 : Nat) < TOTAL_QUESTIONS := by rw [total_questions_eq]; omega
  rw [runFrom, dif_pos h0]
  obtain ⟨iv, hstep⟩ := runStep_eq h0 (hg 0 h0) s0
  rw [if_pos rfl] at hstep
  have hkeys : (runStep (ivs 0) 0 s0).answers.map Prod.fst =
      (QUESTIONS.take 1).map Question.id := by
    rw [hstep]
    show (setAns Sess.fresh.answers _ iv).map Prod.fst = _
    rw [map_fst_setAns_not_mem iv (by simp [Sess.fresh])]
    simp [Sess.fresh]
    rw [List.take_succ]
    simp [List.take_zero]
    rw [List.getElem?_eq_getElem (show 0 < QUESTIONS.length from h0)]
    rfl
  have hsv : (runStep (ivs 0) 0 s0).statsSaved = false := by
    rw [hstep]
    rfl
  exact runFrom_inv ivs hg (TOTAL_QUESTIONS - 1) 1 _ (by rw [total_questions_eq])
    (le_refl 1) hkeys hsv

/-! ## Concrete parse evaluations -/

theorem parse_val (s : String) (l : NumLit) (oc : Option Char) {q : ℚ}
    (hp : parseLit s = some (l, oc)) (hv : l.toQ * 10 ^ sexp oc = q) :
    parse_number s = some q := by
  rw [parse_number_eq_some hp, hv]

theorem parse_ten : parse_number "10" = some 10 :=
  parse_val "10" ⟨false, ['1', '0'], []⟩ none (by decide)
    (by norm_num [NumLit.toQ, sexp, (by decide : digitsVal ['1', '0'] = 10),
      (by decide : digitsVal ([] : List Char) = 0)])

theorem parse_twenty : parse_number "20" = some 20 :=
  parse_val "20" ⟨false, ['2', '0'], []⟩ none (by decide)
    (by norm_num [NumLit.toQ, sexp, (by decide : digitsVal ['2', '0'] = 20),
      (by decide : digitsVal ([] : List Char) = 0)])

/-- C1: the behaviour of `parse_number` on the spec's rejection set.  The
empty string, `","`, `"1..0"` and `"abc"` are rejected, but `"1,,000"`,
`",100"`, `"100,"` and `"12,34"` are accepted (as 1000, 100, 100 and 1234):
the shorthand regex is matched against the comma-stripped string before the
comma-placement validation runs, so the grouping check is unreachable. -/
theorem c1_parse_rejections :
    parse_number "" = none ∧ parse_number "," = none ∧ parse_number "1..0" = none ∧
      parse_number "abc" = none ∧ parse_number "1,,000" = some 1000 ∧
      parse_number ",100" = some 100 ∧ parse_number "100," = some 100 ∧
      parse_number "12,34" = some 1234 := by
  refine ⟨parse_number_eq_none (by decide), parse_number_eq_none (by decide),
    parse_number_eq_none (by decide), parse_number_eq_none (by decide), ?_, ?_, ?_, ?_⟩
  · exact parse_val "1,,000" ⟨false, ['1', '0', '0', '0'], []⟩ none (by decide)
      (by norm_num [NumLit.toQ, sexp, (by decide : digitsVal ['1', '0', '0', '0'] = 1000),
        (by decide : digitsVal ([] : List Char) = 0)])
  · exact parse_val ",100" ⟨false, ['1', '0', '0'], []⟩ none (by decide)
      (by norm_num [NumLit.toQ, sexp, (by decide : digitsVal ['1', '0', '0'] = 100),
        (by decide : digitsVal ([] : List Char) = 0)])
  · exact parse_val "100," ⟨false, ['1', '0', '0'], []⟩ none (by decide)
      (by norm_num [NumLit.toQ, sexp, (by decide : digitsVal ['1', '0', '0'] = 100),
        (by decide : digitsVal ([] : List Char) = 0)])
  · exact parse_val "12,34" ⟨false, ['1', '2', '3', '4'], []⟩ none (by decide)
      (by norm_num [NumLit.toQ, sexp, (by decide : digitsVal ['1', '2', '3', '4'] = 1234),
        (by decide : digitsVal ([] : List Char) = 0)])

/-- C5: `parse_number` accepts the spec's acceptance set with the
mathematically correct values, and `"3,200K"` parses identically to
`"3200K"` (commas are stripped before shorthand matching). -/
theorem c5_parse_acceptance :
    parse_number "40,000,000" = some 40000000 ∧ parse_number "40.5" = some (81 / 2) ∧
      parse_number ".5" = some (1 / 2) ∧ parse_number "42." = some 42 ∧
      parse_number "10K" = some 10000 ∧ parse_number "3.2B" = some 3200000000 ∧
      parse_number "1.2T" = some 1200000000000 ∧ parse_number "1,200" = some 1200 ∧
      parse_number "3,200K" = parse_number "3200K" ∧
      parse_number "3200K" = some 3200000 := by
  have h32 : parse_number "3200K" = some 3200000 :=
    parse_val "3200K" ⟨false, ['3', '2', '0', '0'], []⟩ (some 'K') (by decide)
      (by norm_num [NumLit.toQ, (by decide : sexp (some 'K') = 3),
        (by decide : digitsVal ['3', '2', '0', '0'] = 3200),
        (by decide : digitsVal ([] : List Char) = 0)])
  refine ⟨?_, ?_, ?_, ?_, ?_, ?_, ?_, ?_, ?_, h32⟩
  · exact parse_val "40,000,000" ⟨false, ['4', '0', '0', '0', '0', '0', '0', '0'], []⟩ none
      (by decide)
      (by norm_num [NumLit.toQ, sexp,
        (by decide : digitsVal ['4', '0', '0', '0', '0', '0', '0', '0'] = 40000000),
        (by decide : digitsVal ([] : List Char) = 0)])
  · exact parse_val "40.5" ⟨false, ['4', '0'], ['5']⟩ none (by decide)
      (by norm_num [NumLit.toQ, sexp, (by decide : digitsVal ['4', '0'] = 40),
        (by decide : digitsVal ['5'] = 5)])
  · exact parse_val ".5" ⟨false, ['0'], ['5']⟩ none (by decide)
      (by norm_num [NumLit.toQ, sexp, (by decide : digitsVal ['0'] = 0),
        (by decide : digitsVal ['5'] = 5)])
  · exact parse_val "42." ⟨false, ['4', '2'], []⟩ none (by decide)
      (by norm_num [NumLit.toQ, sexp, (by decide : digitsVal ['4', '2'] = 42),
        (by decide : digitsVal ([] : List Char) = 0)])
  · exact parse_val "10K" ⟨false, ['1', '0'], []⟩ (some 'K') (by decide)
      (by norm_num [NumLit.toQ, (by decide : sexp (some 'K') = 3),
        (by decide : digitsVal ['1', '0'] = 10),
        (by decide : digitsVal ([] : List Char) = 0)])
  · exact parse_val "3.2B" ⟨false, ['3'], ['2']⟩ (some 'B') (by decide)
      (by norm_num [NumLit.toQ, (by decide : sexp (some 'B') = 9),
        (by decide : digitsVal ['3'] = 3), (by decide : digitsVal ['2'] = 2)])
  · exact parse_val "1.2T" ⟨false, ['1'], ['2']⟩ (some 'T') (by decide)
      (by norm_num [NumLit.toQ, (by decide : sexp (some 'T') = 12),
        (by decide : digitsVal ['1'] = 1), (by decide : digitsVal ['2'] = 2)])
  · exact parse_val "1,200" ⟨false, ['1', '2', '0', '0'], []⟩ none (by decide)
      (by norm_num [NumLit.toQ, sexp, (by decide : digitsVal ['1', '2', '0', '0'] = 1200),
        (by decide : digitsVal ([] : List Char) = 0)])
  · rw [h32]
    exact parse_val "3,200K" ⟨false, ['3', '2', '0', '0'], []⟩ (some 'K') (by decide)
      (by norm_num [NumLit.toQ, (by decide : sexp (some 'K') = 3),
        (by decide : digitsVal ['3', '2', '0', '0'] = 3200),
        (by decide : digitsVal ([] : List Char) = 0)])

/-! ## Repeated results views -/

theorem viewResults_committed (k : Nat) (s : Sess) (d : StatsD)
    (hsv : s.statsSaved = true) (hlen : s.answers.length = TOTAL_QUESTIONS)
    (hf : ∀ q ∈ QUESTIONS, (lookupA s.answers q.id).isSome)
    (hall : hasAll d) (htr : d.total_runs ≠ 0) :
    viewResults k s d = .ok (s, d) := by
  induction k with
  | zero => rfl
  | succ k ih =>
    obtain ⟨v, hv⟩ := results_committed s d hsv hlen hf hall htr
    unfold viewResults
    rw [hv]
    exact ih

/-! ## C6: float overflow -/

theorem rhe_nonneg {x : ℚ} (hx : 0 ≤ x) : 0 ≤ (rhe x : ℚ) := by
  unfold rhe
  have hf : (0 : ℤ) ≤ ⌊x⌋ := Int.floor_nonneg.mpr hx
  have hfq : (0 : ℚ) ≤ (⌊x⌋ : ℚ) := by exact_mod_cast hf
  split_ifs <;> push_cast <;> linarith

theorem rhe_le_add_one (x : ℚ) : (rhe x : ℚ) ≤ x + 1 := by
  unfold rhe
  have hfl : (⌊x⌋ : ℚ) ≤ x := Int.floor_le x
  split_ifs <;> push_cast <;> linarith

theorem rnd53Pos_bound {a : ℚ} (ha : 0 < a) :
    0 ≤ rnd53Pos a ∧ rnd53Pos a ≤ 2 * a := by
  unfold rnd53Pos
  set e : ℤ := Int.log 2 a - 52 with he
  have h2 : (0 : ℚ) < 2 ^ e := zpow_pos (by norm_num) e
  have hlog : (2 : ℚ) ^ Int.log 2 a ≤ a := by
    have h := Int.zpow_log_le_self (show (1 : ℕ) < 2 by norm_num) ha
    push_cast at h
    exact h
  have hsplit : (2 : ℚ) ^ Int.log 2 a = 2 ^ e * 2 ^ (52 : ℤ) := by
    rw [← zpow_add₀ (by norm_num : (2 : ℚ) ≠ 0)]
    congr 1
    omega
  have h52 : (1 : ℚ) ≤ 2 ^ (52 : ℤ) := by norm_num
  have he_le : (2 : ℚ) ^ e ≤ a := by
    calc (2 : ℚ) ^ e ≤ 2 ^ e * 2 ^ (52 : ℤ) :=
          le_mul_of_one_le_right (le_of_lt h2) h52
      _ = 2 ^ Int.log 2 a := hsplit.symm
      _ ≤ a := hlog
  have hx : (0 : ℚ) ≤ a / 2 ^ e := le_of_lt (div_pos ha h2)
  refine ⟨mul_nonneg (rhe_nonneg hx) (le_of_lt h2), ?_⟩
  calc (rhe (a / 2 ^ e) : ℚ) * 2 ^ e ≤ (a / 2 ^ e + 1) * 2 ^ e := by
        have := rhe_le_add_one (a / 2 ^ e)
        nlinarith
    _ = a + 2 ^ e := by
        rw [add_mul, div_mul_cancel₀ _ (ne_of_gt h2), one_mul]
    _ ≤ 2 * a := by linarith

theorem abs_rnd53_le (q : ℚ) : |rnd53 q| ≤ 2 * |q| := by
  unfold rnd53
  by_cases h0 : q = 0
  · simp [h0]
  · rw [if_neg h0]
    obtain ⟨hnn, hle⟩ := rnd53Pos_bound (abs_pos.mpr h0)
    by_cases hneg : q < 0
    · rw [if_pos hneg,
        show (-1 : ℚ) * rnd53Pos |q| = -(rnd53Pos |q|) from by ring,
        abs_neg, abs_of_nonneg hnn]
      exact hle
    · rw [if_neg hneg, one_mul, abs_of_nonneg hnn]
      exact hle

/-- C6 (amended): every accepted input whose exact value is below *half*
the IEEE binary64 overflow threshold parses to a finite float (the two
roundings each at most double the magnitude, so neither step can reach the
threshold); between `ovfT / 2` and `ovfT` double rounding decides, and at
or above `ovfT` the result is infinite. -/
theorem c6_finite_below_half_threshold (s : String) (q : ℚ)
    (h : parse_number s = some q) (hlt : |q| < ovfT / 2) :
    ∃ d : ℚ, parse_number_float s = some (.fin d) ∧ |d| ≤ 4 * |q| := by
  cases hp : parseLit s with
  | none =>
    rw [parse_number_eq_none hp] at h
    exact absurd h (by simp)
  | some p =>
    obtain ⟨l, oc⟩ := p
    rw [parse_number_eq_some hp] at h
    have hq : l.toQ * 10 ^ sexp oc = q := by
      injection h
    have hm : (1 : ℚ) ≤ 10 ^ sexp oc := sexp_ge_one oc
    have hpow : (0 : ℚ) < 10 ^ sexp oc := by positivity
    have habs_q : |l.toQ| * 10 ^ sexp oc = |q| := by
      rw [← hq, abs_mul, abs_of_nonneg (le_of_lt hpow)]
    have habs : |l.toQ| ≤ |q| := by
      rw [← habs_q]
      nlinarith [abs_nonneg l.toQ]
    have hT : (0 : ℚ) < ovfT := by unfold ovfT; norm_num
    have hlt1 : |l.toQ| < ovfT := lt_of_le_of_lt habs (by linarith)
    have hl2 := abs_lt.mp hlt1
    have h1 : rndF l.toQ = .fin (rnd53 l.toQ) := by
      unfold rndF
      rw [if_neg (not_le.mpr hl2.2), if_neg (not_le.mpr (by linarith [hl2.1]))]
    have hd1 : |rnd53 l.toQ| ≤ 2 * |l.toQ| := abs_rnd53_le l.toQ
    have habs2 : |rnd53 l.toQ * 10 ^ sexp oc| ≤ 2 * |q| := by
      rw [abs_mul, abs_of_nonneg (le_of_lt hpow), ← habs_q]
      have := mul_le_mul_of_nonneg_right hd1 (le_of_lt hpow)
      linarith
    have hlt2 : |rnd53 l.toQ * 10 ^ sexp oc| < ovfT := by linarith
    have hl3 := abs_lt.mp hlt2
    refine ⟨rnd53 (rnd53 l.toQ * 10 ^ sexp oc), ?_, ?_⟩
    · rw [parse_number_float_eq_some hp, h1]
      simp only [fmulPow]
      unfold rndF
      rw [if_neg (not_le.mpr hl3.2), if_neg (not_le.mpr (by linarith [hl3.1]))]
    · calc |rnd53 (rnd53 l.toQ * 10 ^ sexp oc)|
          ≤ 2 * |rnd53 l.toQ * 10 ^ sexp oc| := abs_rnd53_le _
        _ ≤ 2 * (2 * |q|) := by linarith
        _ = 4 * |q| := by ring

set_option maxRecDepth 40000 in
/-- C6 counterexample input: the 310-digit literal `10^309` parses
"successfully" but to positive infinity. -/
theorem c6_overflow_at_big_input :
    parse_number_float bigInput = some FloatVal.posInf := by
  have hp : parseLit bigInput = some (⟨false, '1' :: List.replicate 309 '0', []⟩, none) := by
    decide
  rw [parse_number_float_eq_some hp]
  have hv : NumLit.toQ ⟨false, '1' :: List.replicate 309 '0', []⟩ = (10 : ℚ) ^ 309 := by
    norm_num [NumLit.toQ,
      (by decide : digitsVal ('1' :: List.replicate 309 '0') = 10 ^ 309),
      (by decide : digitsVal ([] : List Char) = 0)]
  rw [hv]
  have hge : ovfT ≤ (10 : ℚ) ^ 309 := by
    unfold ovfT
    norm_num
  have h1 : rndF ((10 : ℚ) ^ 309) = .posInf := by
    unfold rndF
    rw [if_pos hge]
  rw [h1]
  rfl

theorem c6_finite_below_half_threshold_witness :
    ∃ d : ℚ, parse_number_float "42" = some (.fin d) ∧ |d| ≤ 4 * |(42 : ℚ)| := by
  have h42 : parse_number "42" = some 42 :=
    parse_val "42" ⟨false, ['4', '2'], []⟩ none (by decide)
      (by norm_num [NumLit.toQ, sexp, (by decide : digitsVal ['4', '2'] = 42),
        (by decide : digitsVal ([] : List Char) = 0)])
  refine c6_finite_below_half_threshold "42" 42 h42 ?_
  rw [show |(42 : ℚ)| = 42 from abs_of_nonneg (by norm_num)]
  unfold ovfT
  norm_num

/-! ## C10: requests to question 0 -/

/-- C10: any request to `/question/0` behaves as if the prior session were
fresh — the handler clears answers, the commit flag *and* the stored
`unit_system` preference before anything else; on a GET the resulting
session is exactly the fresh one (`unitSystem = none`). -/
theorem c10_question_zero_clears_session :
    (∀ (m : QMethod) (s : Sess), question_route 0 m s = question_route 0 m Sess.fresh) ∧
      (∀ s : Sess, question_route 0 .get s = (.renderForm, Sess.fresh)) ∧
      Sess.fresh.unitSystem = none :=
  ⟨question_route_zero_ignores_session, question_route_zero_get, rfl⟩

/-! ## C2: submission ordering -/

/-- C2 counterexample: on a fresh session (no answers, "current position"
0), a POST to `/question/1` with valid bounds is accepted — the answer for
`q2` is stored and the user is redirected onward.  The handler never
compares the posted index with any session position. -/
theorem c2_out_of_order_submission_accepted :
    question_route 1 (.post ⟨"10", "20", none⟩) Sess.fresh =
      (.redirectQuestion 2, ⟨[("q2", ⟨10, 20⟩)], false, none⟩) := by
  have h1 : parse_number (pyStripS "10") = some 10 := by
    rw [(by decide : pyStripS "10" = "10")]
    exact parse_ten
  have h2 : parse_number (pyStripS "20") = some 20 := by
    rw [(by decide : pyStripS "20" = "20")]
    exact parse_twenty
  have h := question_route_post_ok (i := 1) (p := ("10", "20")) (by decide) Sess.fresh h1 h2
    (by norm_num)
  rw [if_neg (by decide : ¬(1 : Nat) = 0), if_pos (by decide : 1 + 1 < TOTAL_QUESTIONS)] at h
  rw [h, (by decide : ((QUESTIONS[1]?).getD dummyQ).id = "q2")]
  rw [setAns_not_mem _ (by simp [Sess.fresh])]
  rfl

/-- C2 (amended): the handler never checks the submitted index against a
session position (see the counterexample), but sequential integrity holds:
a run that starts at question 0 and advances through all `N` valid
submissions ends with exactly `N` answers, one per catalog question id in
catalog order, the results view then renders a page, and a session with
any other number of answers is redirected away from `/results`. -/
theorem c2_sequential_integrity :
    (∀ (ivs : Nat → String × String) (s0 : Sess) (d : StatsD),
      (∀ i < TOTAL_QUESTIONS, goodForm (ivs i) = true) →
      (runFrom ivs 0 s0).answers.map Prod.fst = QUESTIONS.map Question.id ∧
        (runFrom ivs 0 s0).answers.length = TOTAL_QUESTIONS ∧
        ∃ v s' d', results_route (runFrom ivs 0 s0) d = .ok (.page v, s', d')) ∧
      (∀ (s : Sess) (d : StatsD), s.answers.length ≠ TOTAL_QUESTIONS →
        results_route s d = .ok (.redirectIndex, s, d)) := by
  constructor
  · intro ivs s0 d hg
    obtain ⟨hkeys, hsv⟩ := runFrom_zero ivs s0 hg
    have hlen : (runFrom ivs 0 s0).answers.length = TOTAL_QUESTIONS := by
      have := congrArg List.length hkeys
      simpa using this
    refine ⟨hkeys, hlen, ?_⟩
    set sf := runFrom ivs 0 s0 with hsf
    have hf : ∀ q ∈ QUESTIONS,
        lookupA sf.answers q.id = some ((lookupA sf.answers q.id).getD ⟨0, 0⟩) := by
      intro q hq
      have hmem : q.id ∈ sf.answers.map Prod.fst := by
        rw [hkeys]
        exact List.mem_map_of_mem Question.id hq
      obtain ⟨iv, hiv⟩ := Option.isSome_iff_exists.mp (lookupA_isSome_of_mem hmem)
      rw [hiv]
      rfl
    exact ⟨_, _, _, results_main sf d _ hsv hlen hf⟩
  · intro s d h
    unfold results_route
    rw [if_pos (Or.inr h)]

theorem goodForm_ten_twenty : goodForm ("10", "20") = true := by
  rw [goodForm_iff]
  refine ⟨10, 20, ?_, ?_, by norm_num⟩
  · rw [(by decide : pyStripS ("10", "20").1 = "10")]
    exact parse_ten
  · rw [(by decide : pyStripS ("10", "20").2 = "20")]
    exact parse_twenty

theorem c2_sequential_integrity_witness :
    (runFrom (fun _ => ("10", "20")) 0 Sess.fresh).answers.map Prod.fst =
        QUESTIONS.map Question.id ∧
      (runFrom (fun _ => ("10", "20")) 0 Sess.fresh).answers.length = TOTAL_QUESTIONS ∧
      ∃ v s' d',
        results_route (runFrom (fun _ => ("10", "20")) 0 Sess.fresh) zeroStats =
          .ok (.page v, s', d') :=
  c2_sequential_integrity.1 (fun _ => ("10", "20")) Sess.fresh zeroStats
    (fun _ _ => goodForm_ten_twenty)

/-! ## C3: idempotent commit -/

/-- C3: the stats commit is idempotent per session.  Viewing `/results`
any number `k ≥ 1` of times on a completed, uncommitted session leaves the
session committed and the store at exactly one commit: `total_runs` up by
1, `total_correct` up by this run's correct count, and every catalog
question's `attempts` up by exactly 1 (its `correct` by this run's
correctness), no matter how large `k` is. -/
theorem c3_commit_idempotent (s : Sess) (d : StatsD) (f : Question → Interval) (k : Nat)
    (hsv : s.statsSaved = false) (hlen : s.answers.length = TOTAL_QUESTIONS)
    (hf : ∀ q ∈ QUESTIONS, lookupA s.answers q.id = some (f q)) (hk : 1 ≤ k) :
    viewResults k s d = .ok ({ s with statsSaved := true }, commitD d f) ∧
      (commitD d f).total_runs = d.total_runs + 1 ∧
      (commitD d f).total_correct = d.total_correct + runCorrect f ∧
      ∀ q ∈ QUESTIONS, lookupQ (commitD d f).per_question q.id =
        some ⟨((lookupQ d.per_question q.id).getD ⟨0, 0⟩).attempts + 1,
          ((lookupQ d.per_question q.id).getD ⟨0, 0⟩).correct
            + (if correctB q (f q) then 1 else 0)⟩ := by
  refine ⟨?_, commitD_total_runs d f, commitD_total_correct d f, fun q hq => lookupQ_commitD d f hq⟩
  cases k with
  | zero => omega
  | succ k =>
    unfold viewResults
    rw [results_main s d f hsv hlen hf]
    exact viewResults_committed k _ _ rfl hlen
      (fun q hq => by rw [hf q hq]; rfl) (hasAll_commitD d f) (commitD_total_runs_ne_zero d f)

theorem answersAll_length : answersAll.length = TOTAL_QUESTIONS := by
  unfold answersAll TOTAL_QUESTIONS
  rw [List.length_map]

theorem answersAll_lookup : ∀ q ∈ QUESTIONS, lookupA answersAll q.id = some (fAll q) :=
  fun _ hq => lookupA_map_of_nodup fAll questions_ids_nodup hq

theorem c3_commit_idempotent_witness :
    viewResults 2 ⟨answersAll, false, none⟩ zeroStats =
        .ok ({ (⟨answersAll, false, none⟩ : Sess) with statsSaved := true },
          commitD zeroStats fAll) ∧
      (commitD zeroStats fAll).total_runs = zeroStats.total_runs + 1 ∧
      (commitD zeroStats fAll).total_correct = zeroStats.total_correct + runCorrect fAll ∧
      ∀ q ∈ QUESTIONS, lookupQ (commitD zeroStats fAll).per_question q.id =
        some ⟨((lookupQ zeroStats.per_question q.id).getD ⟨0, 0⟩).attempts + 1,
          ((lookupQ zeroStats.per_question q.id).getD ⟨0, 0⟩).correct
            + (if correctB q (fAll q) then 1 else 0)⟩ :=
  c3_commit_idempotent ⟨answersAll, false, none⟩ zeroStats fAll 2 rfl
    answersAll_length answersAll_lookup (by omega)

/-! ## C4: the global-average division -/

/-- C4 (amended): the global average
`round(100 * total_correct / (total_runs * N), 1)` is computed with *no*
division-by-zero guard.  On the commit path `total_runs` has just been
incremented, so the division is defined and the page shows the claimed
formula; but when the session is already committed and the store records
zero runs, the handler raises `ZeroDivisionError` instead of reporting a
neutral default. -/
theorem c4_global_average_unguarded :
    (∀ (s : Sess) (d : StatsD), s.statsSaved = true →
      s.answers.length = TOTAL_QUESTIONS →
      (∀ q ∈ QUESTIONS, (lookupA s.answers q.id).isSome) → d.total_runs = 0 →
      results_route s d = .error .zeroDivision) ∧
    (∀ (s : Sess) (d : StatsD) (f : Question → Interval), s.statsSaved = false →
      s.answers.length = TOTAL_QUESTIONS →
      (∀ q ∈ QUESTIONS, lookupA s.answers q.id = some (f q)) →
      ∃ s' d', results_route s d = .ok (.page (viewOf d f), s', d') ∧
        (viewOf d f).global_avg =
          round1 (100 * ((d.total_correct + runCorrect f : Nat) : ℚ) /
            (((d.total_runs + 1) * TOTAL_QUESTIONS : Nat) : ℚ))) := by
  constructor
  · exact fun s d hsv hlen hf htr => results_zero_div s d hsv hlen hf htr
  · intro s d f hsv hlen hf
    refine ⟨_, _, results_main s d f hsv hlen hf, ?_⟩
    show round1 ((((commitD d f).total_correct : ℚ) /
      (((commitD d f).total_runs * TOTAL_QUESTIONS : Nat) : ℚ)) * 100) = _
    rw [commitD_total_correct, commitD_total_runs]
    congr 1
    push_cast
    ring

/-- C4 counterexample: a committed session over a zero-run store makes
`/results` raise `ZeroDivisionError`; nothing reports `0.0`. -/
theorem c4_zero_runs_crash :
    results_route ⟨answersAll, true, none⟩ ⟨0, 0, []⟩ = .error .zeroDivision :=
  results_zero_div _ _ rfl answersAll_length
    (fun q hq => by rw [answersAll_lookup q hq]; rfl) rfl

theorem c4_global_average_unguarded_witness :
    ∃ s' d', results_route ⟨answersAll, false, none⟩ zeroStats =
        .ok (.page (viewOf zeroStats fAll), s', d') ∧
      (viewOf zeroStats fAll).global_avg =
        round1 (100 * ((zeroStats.total_correct + runCorrect fAll : Nat) : ℚ) /
          (((zeroStats.total_runs + 1) * TOTAL_QUESTIONS : Nat) : ℚ)) :=
  c4_global_average_unguarded.2 ⟨answersAll, false, none⟩ zeroStats fAll rfl
    answersAll_length answersAll_lookup

/-! ## C7: store corruption -/

/-- C7 counterexample: a store whose content is well-formed JSON but not an
object (for instance `[]`) makes `load_stats` raise `AttributeError`
(`data.setdefault` on a non-dict) instead of returning the zero record. -/
theorem c7_non_object_store_crashes :
    load_stats .jsonNonObject = .error .attributeError := rfl

/-- C7 (amended): a missing backing store and syntactically invalid JSON
content both yield the zero-valued record (all counters zero, a zero entry
per catalog question); but content that is valid JSON of the wrong shape
fails the caller (see the counterexample). -/
theorem c7_load_defaults :
    load_stats .missing = .ok zeroStats ∧ load_stats .invalidJson = .ok zeroStats :=
  ⟨rfl, rfl⟩

/-! ## C8: scoring -/

/-- C8: on a completed session the results page judges every question by
`lower ≤ true_value ≤ upper`, inclusive at both boundaries, and
`score_pct = round(100 * correct_count / N, 1)`. -/
theorem c8_scoring (s : Sess) (d : StatsD) (f : Question → Interval)
    (hsv : s.statsSaved = false) (hlen : s.answers.length = TOTAL_QUESTIONS)
    (hf : ∀ q ∈ QUESTIONS, lookupA s.answers q.id = some (f q)) :
    ∃ s' d', results_route s d = .ok (.page (viewOf d f), s', d') ∧
      (viewOf d f).per_question_results = QUESTIONS.map (fun q => mkPQ q (f q)) ∧
      (∀ (q : Question) (iv : Interval),
        (mkPQ q iv).is_correct = true ↔ iv.lower ≤ q.true_value ∧ q.true_value ≤ iv.upper) ∧
      (viewOf d f).correct_count = runCorrect f ∧
      (viewOf d f).score_pct =
        round1 (100 * ((viewOf d f).correct_count : ℚ) / (TOTAL_QUESTIONS : ℚ)) := by
  refine ⟨_, _, results_main s d f hsv hlen hf, rfl, ?_, rfl, ?_⟩
  · intro q iv
    simp [mkPQ, correctB]
  · show round1 (((runCorrect f : ℚ) / (TOTAL_QUESTIONS : ℚ)) * 100) = _
    simp only [viewOf]
    congr 1
    ring

theorem c8_scoring_witness :
    ∃ s' d', results_route ⟨answersAll, false, none⟩ zeroStats =
        .ok (.page (viewOf zeroStats fAll), s', d') ∧
      (viewOf zeroStats fAll).per_question_results =
        QUESTIONS.map (fun q => mkPQ q (fAll q)) ∧
      (∀ (q : Question) (iv : Interval),
        (mkPQ q iv).is_correct = true ↔ iv.lower ≤ q.true_value ∧ q.true_value ≤ iv.upper) ∧
      (viewOf zeroStats fAll).correct_count = runCorrect fAll ∧
      (viewOf zeroStats fAll).score_pct =
        round1 (100 * ((viewOf zeroStats fAll).correct_count : ℚ) / (TOTAL_QUESTIONS : ℚ)) :=
  c8_scoring ⟨answersAll, false, none⟩ zeroStats fAll rfl answersAll_length answersAll_lookup

/-! ## Formatter lemmas -/

theorem digitChar_ne_dot (d : Nat) : digitChar d ≠ '.' := by
  unfold digitChar
  split_ifs <;> decide

theorem digitChar_isDigit (d : Nat) : (digitChar d).isDigit = true := by
  unfold digitChar
  split_ifs <;> decide

theorem natDigitsAux_mem (fuel : Nat) :
    ∀ n, ∀ c ∈ natDigitsAux fuel n, ∃ d, c = digitChar d := by
  induction fuel with
  | zero =>
    intro n c hc
    simp [natDigitsAux] at hc
  | succ fuel ih =>
    intro n c hc
    rw [natDigitsAux] at hc
    by_cases hn : n = 0
    · simp [hn] at hc
    · rw [if_neg hn] at hc
      rcases List.mem_append.mp hc with h | h
      · exact ih _ c h
      · exact ⟨n % 10, by simpa using h⟩

theorem natDigits_mem (n : Nat) : ∀ c ∈ natDigits n, ∃ d, c = digitChar d := by
  intro c hc
  unfold natDigits at hc
  by_cases hn : n = 0
  · rw [if_pos hn] at hc
    exact ⟨0, by simpa [digitChar] using hc⟩
  · rw [if_neg hn] at hc
    exact natDigitsAux_mem n n c hc

theorem natDigits_ne_nil (n : Nat) : natDigits n ≠ [] := by
  unfold natDigits
  by_cases hn : n = 0
  · simp [hn]
  · rw [if_neg hn]
    obtain ⟨m, rfl⟩ := Nat.exists_eq_succ_of_ne_zero hn
    rw [natDigitsAux, if_neg hn]
    simp

theorem natDigits_getLast (n : Nat) :
    ∃ d, (natDigits n).getLast? = some (digitChar d) := by
  have hne := natDigits_ne_nil n
  have hm := List.getLast_mem hne
  obtain ⟨d, hd⟩ := natDigits_mem n _ hm
  exact ⟨d, by rw [List.getLast?_eq_getLast _ hne, hd]⟩

theorem group3Rev_head? : ∀ l : List Char, (group3Rev l).head? = l.head? := by
  intro l
  rcases l with _ | ⟨a, _ | ⟨b, _ | ⟨c, _ | ⟨d, rest⟩⟩⟩⟩ <;> rfl

theorem group3Rev_mem_aux :
    ∀ (n : Nat) (l : List Char), l.length ≤ n → ∀ x ∈ group3Rev l, x ∈ l ∨ x = ',' := by
  intro n
  induction n with
  | zero =>
    intro l hl x hx
    have hl0 : l = [] := List.eq_nil_of_length_eq_zero (Nat.le_zero.mp hl)
    subst hl0
    simp [group3Rev] at hx
  | succ n ih =>
    intro l hl x hx
    rcases l with _ | ⟨a, _ | ⟨b, _ | ⟨c, _ | ⟨d, rest⟩⟩⟩⟩
    · simpa [group3Rev] using hx
    · exact Or.inl hx
    · exact Or.inl hx
    · exact Or.inl hx
    · rw [show group3Rev (a :: b :: c :: d :: rest) =
        a :: b :: c :: ',' :: group3Rev (d :: rest) from rfl] at hx
      simp only [List.mem_cons] at hx ⊢
      rcases hx with h | h | h | h | h
      · exact Or.inl (Or.inl h)
      · exact Or.inl (Or.inr (Or.inl h))
      · exact Or.inl (Or.inr (Or.inr (Or.inl h)))
      · exact Or.inr h
      · have hlen : (d :: rest).length ≤ n := by
          simp only [List.length_cons] at hl ⊢
          omega
        rcases ih (d :: rest) hlen x h with h2 | h2
        · exact Or.inl (Or.inr (Or.inr (Or.inr (List.mem_cons.mp h2))))
        · exact Or.inr h2

theorem addCommas_mem {ds : List Char} {x : Char} (hx : x ∈ addCommas ds) :
    x ∈ ds ∨ x = ',' := by
  unfold addCommas at hx
  rw [List.mem_reverse] at hx
  rcases group3Rev_mem_aux ds.reverse.length ds.reverse (le_refl _) x hx with h | h
  · exact Or.inl (List.mem_reverse.mp h)
  · exact Or.inr h

theorem addCommas_getLast? (ds : List Char) :
    (addCommas ds).getLast? = ds.getLast? := by
  unfold addCommas
  rw [List.getLast?_reverse, group3Rev_head?, List.head?_reverse]

theorem addCommas_ne_nil {ds : List Char} (h : ds ≠ []) : addCommas ds ≠ [] := by
  intro he
  apply h
  have h1 : group3Rev ds.reverse = [] := by
    have h2 := congrArg List.reverse he
    simpa [addCommas] using h2
  have h3 := group3Rev_head? ds.reverse
  rw [h1] at h3
  rw [← List.reverse_eq_nil_iff, ← List.head?_eq_none_iff]
  exact h3.symm

/-! ## `rstrip` lemmas -/

theorem rstripChar_sublist (c : Char) (l : List Char) :
    List.Sublist (rstripChar c l) l := by
  unfold rstripChar
  have h := (List.dropWhile_sublist (l := l.reverse) (· = c)).reverse
  simpa using h

theorem rstripChar_length_le (c : Char) (l : List Char) :
    (rstripChar c l).length ≤ l.length :=
  (rstripChar_sublist c l).length_le

theorem rstripChar_mem {c x : Char} {l : List Char} (h : x ∈ rstripChar c l) : x ∈ l :=
  (rstripChar_sublist c l).subset h

theorem head?_dropWhile_false (p : Char → Bool) (l : List Char) :
    ∀ x, (l.dropWhile p).head? = some x → p x = false := by
  induction l with
  | nil => simp
  | cons a rest ih =>
    intro x hx
    rw [List.dropWhile_cons] at hx
    by_cases hp : p a
    · rw [if_pos hp] at hx
      exact ih x hx
    · rw [if_neg hp] at hx
      simp only [List.head?_cons, Option.some.injEq] at hx
      rw [← hx]
      exact Bool.not_eq_true _ ▸ hp

theorem rstripChar_getLast_ne (c : Char) (l : List Char) :
    (rstripChar c l).getLast? ≠ some c := by
  unfold rstripChar
  rw [List.getLast?_reverse]
  intro hh
  have := head?_dropWhile_false (· = c) l.reverse c hh
  simp at this

theorem rstripChar_append_of_ne_nil {c : Char} {ys : List Char}
    (h : rstripChar c ys ≠ []) (xs : List Char) :
    rstripChar c (xs ++ ys) = xs ++ rstripChar c ys := by
  unfold rstripChar at h ⊢
  rw [List.reverse_append, List.dropWhile_append]
  have hne : (ys.reverse.dropWhile (· = c)).isEmpty = false := by
    rw [List.isEmpty_eq_false_iff_exists_mem]
    have h2 : ys.reverse.dropWhile (· = c) ≠ [] := by
      intro he
      apply h
      rw [he]
      rfl
    obtain ⟨a, ha⟩ := List.exists_mem_of_ne_nil _ h2
    exact ⟨a, ha⟩
  rw [hne]
  simp only [Bool.false_eq_true, if_false, List.reverse_append, List.reverse_reverse]

theorem rstripChar_cons_of_ne {x c : Char} (h : ¬ x = c) (ys : List Char) :
    rstripChar c (x :: ys) = x :: rstripChar c ys := by
  by_cases hys : rstripChar c ys = []
  · have hd : List.dropWhile (fun y => decide (y = c)) ys.reverse = [] := by
      have h2 := congrArg List.reverse hys
      simpa [rstripChar] using h2
    unfold rstripChar
    rw [show (x :: ys).reverse = ys.reverse ++ [x] by simp]
    rw [List.dropWhile_append, hd]
    simp [h]
  · rw [show (x :: ys) = [x] ++ ys from rfl, rstripChar_append_of_ne_nil hys]
    rfl

theorem rstripChar_append_last (c : Char) (xs : List Char) :
    rstripChar c (xs ++ [c]) = rstripChar c xs := by
  unfold rstripChar
  rw [List.reverse_append]
  rw [show ([c] : List Char).reverse ++ xs.reverse = c :: xs.reverse from rfl]
  rw [List.dropWhile_cons, if_pos (by simp)]

theorem rstripChar_of_getLast_ne {c : Char} {l : List Char}
    (h : l.getLast? ≠ some c) : rstripChar c l = l := by
  unfold rstripChar
  cases hr : l.reverse with
  | nil =>
    simp [List.reverse_eq_nil_iff.mp hr]
  | cons a t =>
    have ha : a ≠ c := by
      intro he
      apply h
      rw [← List.head?_reverse, hr, he]
      rfl
    rw [List.dropWhile_cons, if_neg (by simpa using ha), ← hr, List.reverse_reverse]

theorem rstripChar_ne_nil_of_getLast_ne {c : Char} {l : List Char}
    (hne : l ≠ []) (h : l.getLast? ≠ some c) : rstripChar c l ≠ [] := by
  rw [rstripChar_of_getLast_ne h]
  exact hne

/-! ## The shape of `format_number` output -/

theorem frac4_mem (m : Nat) : ∀ x ∈ frac4 m, ∃ d, x = digitChar d := by
  intro x hx
  simp only [frac4, List.mem_cons, List.not_mem_nil, or_false] at hx
  rcases hx with h | h | h | h
  · exact ⟨m / 1000 % 10, h⟩
  · exact ⟨m / 100 % 10, h⟩
  · exact ⟨m / 10 % 10, h⟩
  · exact ⟨m % 10, h⟩

theorem format_number_int {q : ℚ} (h : q.den = 1) :
    format_number (some q) =
      String.mk ((if q < 0 then ['-'] else []) ++ addCommas (natDigits q.num.natAbs)) := by
  show (match some q with
    | none => ""
    | some q =>
      if q.den = 1 then { data := (if q < 0 then ['-'] else []) ++ addCommas (natDigits q.num.natAbs) }
      else
        let z := rhe (q * 10000)
        let n := z.natAbs
        let s := (if z < 0 then ['-'] else []) ++ addCommas (natDigits (n / 10000)) ++ ['.'] ++ frac4 (n % 10000)
        { data := rstripChar '.' (rstripChar '0' s) } : String) = _
  simp only []
  rw [if_pos h]

theorem format_number_int_no_dot {q : ℚ} (h : q.den = 1) :
    '.' ∉ (format_number (some q)).toList := by
  rw [format_number_int h]
  show '.' ∉ (if q < 0 then ['-'] else []) ++ addCommas (natDigits q.num.natAbs)
  intro hm
  rcases List.mem_append.mp hm with h1 | h1
  · by_cases hq : q < 0 <;> simp [hq] at h1
  · rcases addCommas_mem h1 with h2 | h2
    · obtain ⟨d, hd⟩ := natDigits_mem _ _ h2
      exact digitChar_ne_dot d hd.symm
    · exact absurd h2 (by decide)

/-- The double `rstrip` of the `%,.4f` rendering, in closed form. -/
theorem format_strip (pre f4 : List Char)
    (hlast : ∃ d, pre.getLast? = some (digitChar d))
    (hf4 : ∀ x ∈ f4, ∃ d, x = digitChar d) :
    rstripChar '.' (rstripChar '0' (pre ++ '.' :: f4)) =
      pre ++ (if (rstripChar '0' f4).isEmpty then [] else '.' :: rstripChar '0' f4) := by
  obtain ⟨dp, hdp⟩ := hlast
  have hpre_last_ne : pre.getLast? ≠ some '.' := by
    rw [hdp]
    intro hc
    exact digitChar_ne_dot dp (Option.some.inj hc)
  have hdot : rstripChar '0' ('.' :: f4) = '.' :: rstripChar '0' f4 :=
    rstripChar_cons_of_ne (by decide) f4
  have hne : rstripChar '0' ('.' :: f4) ≠ [] := by
    rw [hdot]
    simp
  rw [rstripChar_append_of_ne_nil hne pre, hdot]
  by_cases hg : rstripChar '0' f4 = []
  · rw [hg]
    simp only [List.isEmpty_nil, if_true, List.append_nil]
    rw [rstripChar_append_last]
    exact rstripChar_of_getLast_ne hpre_last_ne
  · have hgE : (rstripChar '0' f4).isEmpty = false := by
      rw [List.isEmpty_eq_false_iff_exists_mem]
      obtain ⟨a, ha⟩ := List.exists_mem_of_ne_nil _ hg
      exact ⟨a, ha⟩
    rw [hgE]
    simp only [Bool.false_eq_true, if_false]
    apply rstripChar_of_getLast_ne
    rw [List.getLast?_append_of_ne_nil _ (by simp)]
    have hglast : ('.' :: rstripChar '0' f4).getLast? = (rstripChar '0' f4).getLast? := by
      rw [show ('.' :: rstripChar '0' f4) = ['.'] ++ rstripChar '0' f4 from rfl]
      exact List.getLast?_append_of_ne_nil _ hg
    rw [hglast]
    have hm := List.getLast_mem hg
    obtain ⟨d, hd⟩ := hf4 _ (rstripChar_mem hm)
    rw [List.getLast?_eq_getLast _ hg, hd]
    intro hc
    exact digitChar_ne_dot d (Option.some.inj hc)

/-- The non-integral branch of `format_number`, in closed form: grouped
integer part, then at most four fractional digits with trailing zeros (and
a bare trailing point) stripped. -/
theorem format_number_frac {q : ℚ} (h : q.den ≠ 1) :
    ∃ ds : List Char, ds.length ≤ 4 ∧ ds.getLast? ≠ some '0' ∧
      (∀ x ∈ ds, x.isDigit = true) ∧
      format_number (some q) = String.mk
        ((if rhe (q * 10000) < 0 then ['-'] else [])
          ++ addCommas (natDigits ((rhe (q * 10000)).natAbs / 10000))
          ++ (if (rstripChar '0'
                (frac4 ((rhe (q * 10000)).natAbs % 10000))).isEmpty then []
              else '.' :: rstripChar '0' (frac4 ((rhe (q * 10000)).natAbs % 10000)))) := by
  refine ⟨rstripChar '0' (frac4 ((rhe (q * 10000)).natAbs % 10000)),
    le_trans (rstripChar_length_le _ _) (by rw [frac4]; rfl),
    rstripChar_getLast_ne _ _, ?_, ?_⟩
  · intro x hx
    obtain ⟨d, rfl⟩ := frac4_mem _ x (rstripChar_mem hx)
    exact digitChar_isDigit d
  · show (match some q with
      | none => ""
      | some q =>
        if q.den = 1 then { data := (if q < 0 then ['-'] else []) ++ addCommas (natDigits q.num.natAbs) }
        else
          let z := rhe (q * 10000)
          let n := z.natAbs
          let s := (if z < 0 then ['-'] else []) ++ addCommas (natDigits (n / 10000)) ++ ['.'] ++ frac4 (n % 10000)
          { data := rstripChar '.' (rstripChar '0' s) } : String) = _
    simp only []
    rw [if_neg h]
    congr 1
    have hassoc : ∀ (a b f : List Char), a ++ b ++ ['.'] ++ f = (a ++ b) ++ ('.' :: f) := by
      intro a b f
      simp
    rw [hassoc]
    rw [format_strip]
    · rw [List.getLast?_append_of_ne_nil _ (addCommas_ne_nil (natDigits_ne_nil _))]
      rw [addCommas_getLast?]
      exact natDigits_getLast _
    · exact frac4_mem _

/-! ## C9: `format_number` -/

theorem fmt_13637000000 : format_number (some 13637000000) = "13,637,000,000" := by
  rw [format_number_int (by norm_num)]
  rw [show ((13637000000 : ℚ)).num = 13637000000 from by norm_num]
  rw [if_neg (by norm_num)]
  decide

theorem den_7426_100 : ((7426 : ℚ) / 100).den ≠ 1 := by
  intro h1
  have h2 := (Rat.den_eq_one_iff _).mp h1
  have h3 : (((7426 : ℚ) / 100).num : ℚ) * 100 = 7426 := by
    rw [h2]
    norm_num
  have h4 : ((7426 : ℚ) / 100).num * 100 = 7426 := by exact_mod_cast h3
  omega

theorem rhe_742600 : rhe ((7426 : ℚ) / 100 * 10000) = 742600 := by
  have harg : (7426 : ℚ) / 100 * 10000 = ((742600 : ℤ) : ℚ) := by norm_num
  unfold rhe
  rw [harg, Int.floor_intCast]
  rw [if_pos (by push_cast; norm_num)]

theorem fmt_74_26 : format_number (some ((7426 : ℚ) / 100)) = "74.26" := by
  obtain ⟨ds, _, _, _, heq⟩ := format_number_frac den_7426_100
  rw [heq, rhe_742600]
  rw [if_neg (by decide : ¬ (742600 : ℤ) < 0)]
  decide

/-- C9: `format_number` maps `None` to the empty string; renders
integral values with thousands grouping and no decimal point (for example
`13,637,000,000`); and renders non-integral values with at most 4 decimal
digits, trailing zeros and a bare trailing decimal point stripped, and
thousands grouping applied to the integer part (for example `74.26`). -/
theorem c9_format_number :
    format_number none = "" ∧
      format_number (some 13637000000) = "13,637,000,000" ∧
      format_number (some ((7426 : ℚ) / 100)) = "74.26" ∧
      (∀ q : ℚ, q.den = 1 →
        format_number (some q) =
            String.mk ((if q < 0 then ['-'] else [])
              ++ addCommas (natDigits q.num.natAbs)) ∧
          '.' ∉ (format_number (some q)).toList) ∧
      (∀ q : ℚ, q.den ≠ 1 →
        ∃ ds : List Char, ds.length ≤ 4 ∧ ds.getLast? ≠ some '0' ∧
          (∀ x ∈ ds, x.isDigit = true) ∧
          format_number (some q) = String.mk
            ((if rhe (q * 10000) < 0 then ['-'] else [])
              ++ addCommas (natDigits ((rhe (q * 10000)).natAbs / 10000))
              ++ (if (rstripChar '0'
                    (frac4 ((rhe (q * 10000)).natAbs % 10000))).isEmpty then []
                  else '.' :: rstripChar '0'
                    (frac4 ((rhe (q * 10000)).natAbs % 10000))))) :=
  ⟨rfl, fmt_13637000000, fmt_74_26,
    fun q h => ⟨format_number_int h, format_number_int_no_dot h⟩,
    fun _ h => format_number_frac h⟩

theorem c9_format_number_witness :
    ((5 : ℚ).den = 1 ∧ '.' ∉ (format_number (some 5)).toList) ∧
      ((3 : ℚ) / 2).den ≠ 1 ∧
      (∃ ds : List Char, ds.length ≤ 4 ∧ ds.getLast? ≠ some '0' ∧
        (∀ x ∈ ds, x.isDigit = true) ∧
        format_number (some ((3 : ℚ) / 2)) = String.mk
          ((if rhe ((3 : ℚ) / 2 * 10000) < 0 then ['-'] else [])
            ++ addCommas (natDigits ((rhe ((3 : ℚ) / 2 * 10000)).natAbs / 10000))
            ++ (if (rstripChar '0'
                  (frac4 ((rhe ((3 : ℚ) / 2 * 10000)).natAbs % 10000))).isEmpty then []
                else '.' :: rstripChar '0'
                  (frac4 ((rhe ((3 : ℚ) / 2 * 10000)).natAbs % 10000))))) := by
  have hden5 : (5 : ℚ).den = 1 := by norm_num
  have hden32 : ((3 : ℚ) / 2).den ≠ 1 := by
    intro h1
    have h2 := (Rat.den_eq_one_iff _).mp h1
    have h3 : (((3 : ℚ) / 2).num : ℚ) * 2 = 3 := by
      rw [h2]
      norm_num
    have h4 : ((3 : ℚ) / 2).num * 2 = 3 := by exact_mod_cast h3
    omega
  exact ⟨⟨hden5, (c9_format_number.2.2.2.1 5 hden5).2⟩, hden32,
    c9_format_number.2.2.2.2 ((3 : ℚ) / 2) hden32⟩

end Quiz
